import Mathlib

/-!
Shallow embedding of the core container library (generational slot map,
hashed linear-scan map, bidirectional hashed map, and the named registry
composing the two) together with proofs about the claims of the
specification.  Rust `Vec<T>` is modelled as `List T`, `u64` hashes as
`Nat` (the hash function is an explicit parameter standing for the fixed
`DefaultHasher`-based associated function), `u32` indices and generation
counters as `Nat`.  Fallible operations return `Option`; where the Rust
code can panic (`Vec::swap_remove` out of range, `Option::unwrap`), the
model returns `none` at an outer `Option` layer or is documented at the
definition.  Unchecked accesses (`get_unchecked`) are modelled with
`List.get?`/`getD`; they are exercised only in states where the proved
invariants put the index in range, mirroring the safety contract of the
Rust code.
-/

namespace ModUtils

/-- Model of `Vec::swap_remove` restricted to its effect on the vector:
the element at `i` is replaced by the last element and the last slot is
dropped.  Total completion: out-of-range `i` (a panic in Rust) leaves the
list unchanged; callers that care about the panic use `swapRemoveChk`. -/
def swapRemoveD {α : Type} (l : List α) (i : Nat) : List α :=
  match l.getLast? with
  | none => l
  | some a => if i < l.length then (l.set i a).dropLast else l

/-- Model of `Vec::swap_remove` returning the removed element and the
remaining vector, with `none` standing for the out-of-range panic. -/
def swapRemoveChk {α : Type} (l : List α) (i : Nat) : Option (α × List α) :=
  match l.get? i with
  | some a => some (a, swapRemoveD l i)
  | none => none

/-- First index at which a `(hash, element)` pair matches both the probe
hash and the probe element; this is the `for (idx, own_hash) in
hashes.iter().enumerate()` scan pattern shared by the map lookups, which
checks the cached hash first and confirms with an equality comparison. -/
def hashScan {α : Type} [DecidableEq α] (h : Nat) (x : α) : List (Nat × α) → Option Nat
  | [] => none
  | p :: rest =>
    if p.1 = h ∧ p.2 = x then some 0
    else (hashScan h x rest).map (· + 1)

/-- First index at which an element equals the probe; this is the plain
`for (idx, own_value) in values.iter().enumerate()` equality scan. -/
def eqScan {α : Type} [DecidableEq α] (x : α) : List α → Option Nat
  | [] => none
  | a :: rest =>
    if a = x then some 0
    else (eqScan x rest).map (· + 1)

/-! ## Map (src/collections/map.rs)

`Map<K, V>` keeps three parallel vectors `keys`, `values`, `hashes`;
`hashes[i]` caches `Map::hash(keys[i])`.  All operations take the hash
function as an explicit argument `hash : K → Nat`. -/

structure Map (K V : Type) where
  keys : List K
  values : List V
  hashes : List Nat
  deriving DecidableEq, Repr

/-- Map with no entries (`Map::new` / `with_capacity`; capacity is not
observable in the model). -/
def Map.emptyMap {K V : Type} : Map K V := ⟨[], [], []⟩

/-- Embeds `Map::index_of_hashed_key`: scan the hash column, confirm with
key equality (`keys.get_unchecked(idx)` is the paired key). -/
def Map.index_of_hashed_key {K V : Type} [DecidableEq K]
    (m : Map K V) (h : Nat) (k : K) : Option Nat :=
  hashScan h k (m.hashes.zip m.keys)

/-- Embeds `Map::index_of_key`. -/
def Map.index_of_key {K V : Type} [DecidableEq K]
    (hash : K → Nat) (m : Map K V) (k : K) : Option Nat :=
  m.index_of_hashed_key (hash k) k

/-- Embeds `Map::index_of_value` (full linear scan by equality). -/
def Map.index_of_value {K V : Type} [DecidableEq V]
    (m : Map K V) (v : V) : Option Nat :=
  eqScan v m.values

/-- Embeds `Map::contains_key`. -/
def Map.contains_key {K V : Type} [DecidableEq K]
    (hash : K → Nat) (m : Map K V) (k : K) : Bool :=
  (m.index_of_key hash k).isSome

/-- Embeds `Map::contains_value`. -/
def Map.contains_value {K V : Type} [DecidableEq V]
    (m : Map K V) (v : V) : Bool :=
  (m.index_of_value v).isSome

/-- Embeds `Map::maybe_contains_key`: compares cached hashes only. -/
def Map.maybe_contains_key {K V : Type}
    (hash : K → Nat) (m : Map K V) (k : K) : Bool :=
  m.hashes.any (fun own_hash => own_hash = hash k)

/-- Embeds `Map::len` (`self.values.len()`). -/
def Map.len {K V : Type} (m : Map K V) : Nat := m.values.length

/-- Embeds `Map::find_value` (`values.get_unchecked(idx)` at the found
index; in range whenever the parallel arrays are well formed). -/
def Map.find_value {K V : Type} [DecidableEq K]
    (hash : K → Nat) (m : Map K V) (k : K) : Option V :=
  (m.index_of_key hash k).bind (fun idx => m.values.get? idx)

/-- Embeds `Map::insert`: overwrite the value (returning the old one read
by `mem::replace`) when the hash-then-equality scan finds the key, else
push onto all three columns. -/
def Map.insert {K V : Type} [DecidableEq K]
    (hash : K → Nat) (m : Map K V) (k : K) (v : V) : Option V × Map K V :=
  let h := hash k
  match m.index_of_hashed_key h k with
  | some idx => (m.values.get? idx, { m with values := m.values.set idx v })
  | none => (none, ⟨m.keys ++ [k], m.values ++ [v], m.hashes ++ [h]⟩)

/-- Embeds `Map::insert_unique_key`. -/
def Map.insert_unique_key {K V : Type} [DecidableEq K]
    (hash : K → Nat) (m : Map K V) (k : K) (v : V) : Option (K × V) × Map K V :=
  let h := hash k
  if (m.index_of_hashed_key h k).isSome then (some (k, v), m)
  else (none, ⟨m.keys ++ [k], m.values ++ [v], m.hashes ++ [h]⟩)

/-- Embeds `Map::insert_unique_value`. -/
def Map.insert_unique_value {K V : Type} [DecidableEq K] [DecidableEq V]
    (hash : K → Nat) (m : Map K V) (k : K) (v : V) : Option (K × V) × Map K V :=
  if m.contains_value v then (some (k, v), m)
  else (none, ⟨m.keys ++ [k], m.values ++ [v], m.hashes ++ [hash k]⟩)

/-- Embeds `Map::remove_by_index` exactly as written, including the
double `self.keys.swap_remove(idx)` (line 328 discards its result, line
330 removes from `keys` a second time).  The outer `Option` is the panic
monad: `none` models an out-of-range `Vec::swap_remove` panic, `some
none` models the ordinary not-found return. -/
def Map.remove_by_index {K V : Type}
    (m : Map K V) (idx : Nat) : Option (Option ((K × V) × Map K V)) :=
  if idx < m.len then
    match swapRemoveChk m.hashes idx with
    | none => none
    | some hp =>
      match swapRemoveChk m.keys idx with
      | none => none
      | some kp1 =>
        match swapRemoveChk kp1.2 idx with
        | none => none
        | some kp2 =>
          match swapRemoveChk m.values idx with
          | none => none
          | some vp => some (some ((kp2.1, vp.1), ⟨kp2.2, vp.2, hp.2⟩))
  else some none

/-- Embeds `Map::remove_by_key` (`index_of_key(..).and_then(remove_by_index)`). -/
def Map.remove_by_key {K V : Type} [DecidableEq K]
    (hash : K → Nat) (m : Map K V) (k : K) : Option (Option ((K × V) × Map K V)) :=
  match m.index_of_key hash k with
  | some idx => m.remove_by_index idx
  | none => some none

/-! ## BiMap (src/collections/bimap.rs)

`BiMap<K, V>` keeps four parallel vectors: `keys`, `values`,
`key_hashes`, `value_hashes`. -/

structure BiMap (K V : Type) where
  keys : List K
  values : List V
  key_hashes : List Nat
  value_hashes : List Nat
  deriving DecidableEq, Repr

/-- BiMap with no entries (`BiMap::new`). -/
def BiMap.emptyBiMap {K V : Type} : BiMap K V := ⟨[], [], [], []⟩

/-- Embeds `BiMap::index_of_hashed_key`. -/
def BiMap.index_of_hashed_key {K V : Type} [DecidableEq K]
    (b : BiMap K V) (h : Nat) (k : K) : Option Nat :=
  hashScan h k (b.key_hashes.zip b.keys)

/-- Embeds `BiMap::index_of_key`. -/
def BiMap.index_of_key {K V : Type} [DecidableEq K]
    (hashK : K → Nat) (b : BiMap K V) (k : K) : Option Nat :=
  b.index_of_hashed_key (hashK k) k

/-- Embeds `BiMap::index_of_hashed_value`. -/
def BiMap.index_of_hashed_value {K V : Type} [DecidableEq V]
    (b : BiMap K V) (h : Nat) (v : V) : Option Nat :=
  hashScan h v (b.value_hashes.zip b.values)

/-- Embeds `BiMap::index_of_value` (hash-filtered scan on the value side). -/
def BiMap.index_of_value {K V : Type} [DecidableEq V]
    (hashV : V → Nat) (b : BiMap K V) (v : V) : Option Nat :=
  b.index_of_hashed_value (hashV v) v

/-- Embeds `BiMap::contains_key`. -/
def BiMap.contains_key {K V : Type} [DecidableEq K]
    (hashK : K → Nat) (b : BiMap K V) (k : K) : Bool :=
  (b.index_of_key hashK k).isSome

/-- Embeds `BiMap::contains_value`. -/
def BiMap.contains_value {K V : Type} [DecidableEq V]
    (hashV : V → Nat) (b : BiMap K V) (v : V) : Bool :=
  (b.index_of_value hashV v).isSome

/-- Embeds `BiMap::len`. -/
def BiMap.len {K V : Type} (b : BiMap K V) : Nat := b.values.length

/-- Embeds `BiMap::find_value` (value at the index found by key). -/
def BiMap.find_value {K V : Type} [DecidableEq K]
    (hashK : K → Nat) (b : BiMap K V) (k : K) : Option V :=
  (b.index_of_key hashK k).bind (fun idx => b.values.get? idx)

/-- Embeds `BiMap::find_key` (key at the index found by value). -/
def BiMap.find_key {K V : Type} [DecidableEq V]
    (hashV : V → Nat) (b : BiMap K V) (v : V) : Option K :=
  (b.index_of_value hashV v).bind (fun idx => b.keys.get? idx)

/-- Embeds `BiMap::insert_at_key`: on a key match, `mem::replace` the
cached value hash and the value at that index; else push onto all four
columns. -/
def BiMap.insert_at_key {K V : Type} [DecidableEq K]
    (hashK : K → Nat) (hashV : V → Nat) (b : BiMap K V) (k : K) (v : V) :
    Option V × BiMap K V :=
  let key_hash := hashK k
  let value_hash := hashV v
  match b.index_of_hashed_key key_hash k with
  | some idx =>
    (b.values.get? idx,
     { b with value_hashes := b.value_hashes.set idx value_hash,
              values := b.values.set idx v })
  | none =>
    (none, ⟨b.keys ++ [k], b.values ++ [v],
            b.key_hashes ++ [key_hash], b.value_hashes ++ [value_hash]⟩)

/-- Embeds `BiMap::insert_at_value`: symmetric overwrite keyed by the
value side. -/
def BiMap.insert_at_value {K V : Type} [DecidableEq V]
    (hashK : K → Nat) (hashV : V → Nat) (b : BiMap K V) (v : V) (k : K) :
    Option K × BiMap K V :=
  let key_hash := hashK k
  let value_hash := hashV v
  match b.index_of_hashed_value value_hash v with
  | some idx =>
    (b.keys.get? idx,
     { b with key_hashes := b.key_hashes.set idx key_hash,
              keys := b.keys.set idx k })
  | none =>
    (none, ⟨b.keys ++ [k], b.values ++ [v],
            b.key_hashes ++ [key_hash], b.value_hashes ++ [value_hash]⟩)

/-- Embeds `BiMap::insert_unique_key`. -/
def BiMap.insert_unique_key {K V : Type} [DecidableEq K]
    (hashK : K → Nat) (hashV : V → Nat) (b : BiMap K V) (k : K) (v : V) :
    Option (K × V) × BiMap K V :=
  let key_hash := hashK k
  let value_hash := hashV v
  if (b.index_of_hashed_key key_hash k).isSome then (some (k, v), b)
  else (none, ⟨b.keys ++ [k], b.values ++ [v],
               b.key_hashes ++ [key_hash], b.value_hashes ++ [value_hash]⟩)

/-- Embeds `BiMap::remove_by_index`: the four columns are swap-removed at
the same index.  The returned pair is read before removal; `none` covers
both the out-of-range early return of the Rust code and (in ill-formed
states only) a panic of an unchecked access. -/
def BiMap.remove_by_index {K V : Type}
    (b : BiMap K V) (idx : Nat) : Option ((K × V) × BiMap K V) :=
  if idx < b.len then
    match b.keys.get? idx, b.values.get? idx with
    | some k, some v =>
      some ((k, v),
        ⟨swapRemoveD b.keys idx, swapRemoveD b.values idx,
         swapRemoveD b.key_hashes idx, swapRemoveD b.value_hashes idx⟩)
    | _, _ => none
  else none

/-- Embeds `BiMap::remove_by_key`. -/
def BiMap.remove_by_key {K V : Type} [DecidableEq K]
    (hashK : K → Nat) (b : BiMap K V) (k : K) : Option ((K × V) × BiMap K V) :=
  match b.index_of_key hashK k with
  | some idx => b.remove_by_index idx
  | none => none

/-- Embeds `BiMap::pop` exactly as written: `key_hashes.pop()`,
`keys.pop().unwrap()`, `values.pop().unwrap()` — and no pop of
`value_hashes`. -/
def BiMap.pop {K V : Type} (b : BiMap K V) : Option ((K × V) × BiMap K V) :=
  if b.values.isEmpty then none
  else
    match b.keys.getLast?, b.values.getLast? with
    | some k, some v =>
      some ((k, v),
        ⟨b.keys.dropLast, b.values.dropLast, b.key_hashes.dropLast, b.value_hashes⟩)
    | _, _ => none

/-! ## SlotMap (src/collections/slot_map.rs)

The generational arena.  `KeyData` is the interior of every generated key
type (`make_key_type!` wraps it in distinct newtypes carrying no extra
data, so the model works with `KeyData` directly); `Slot` is the
indirection record; the free list keeps head and tail slot indices with
intrusive links stored in the `idx` field of free slots. -/

structure KeyData where
  idx : Nat
  gen : Nat
  deriving DecidableEq, Repr

/-- Embeds the `NULL` constant generated by `make_key_type!`
(`KeyData { idx: 0, gen: 0 }`). -/
def KeyData.NULL : KeyData := ⟨0, 0⟩

structure Slot where
  idx : Nat
  gen : Nat
  deriving DecidableEq, Repr

structure FreeList where
  head : Nat
  tail : Nat
  deriving DecidableEq, Repr

structure SlotMap (V : Type) where
  keys : List KeyData
  values : List V
  slots : List Slot
  freelist : Option FreeList
  deriving DecidableEq, Repr

/-- SlotMap with no values and no slots (`SlotMap::new`). -/
def SlotMap.emptySM {V : Type} : SlotMap V := ⟨[], [], [], none⟩

/-- Writes the `idx` field of slot `j` (`slots.get_unchecked_mut(j).idx = x`);
a no-op out of range (the Rust access is unchecked and only reached with
in-range `j` under the proved invariant). -/
def setSlotIdx (slots : List Slot) (j : Nat) (x : Nat) : List Slot :=
  match slots.get? j with
  | some sl => slots.set j ⟨x, sl.gen⟩
  | none => slots

/-- Increments the `gen` field of slot `j` (`free_slot.gen += 1`), a no-op
out of range for the same reason as `setSlotIdx`. -/
def bumpGen (slots : List Slot) (j : Nat) : List Slot :=
  match slots.get? j with
  | some sl => slots.set j ⟨sl.idx, sl.gen + 1⟩
  | none => slots

/-- Embeds `SlotMap::contains_key`: bounds-check the slot index, compare
generations. -/
def SlotMap.contains_key {V : Type} (s : SlotMap V) (k : KeyData) : Bool :=
  match s.slots.get? k.idx with
  | some slot => slot.gen = k.gen
  | none => false

/-- Embeds `SlotMap::get`: bounds-check the slot index, compare
generations, then dereference the dense store at `slot.idx` (that last
read is `get_unchecked` in Rust; it is in range for every key the map
ever issued, which the invariant proofs below make precise). -/
def SlotMap.get {V : Type} (s : SlotMap V) (k : KeyData) : Option V :=
  match s.slots.get? k.idx with
  | some slot => if slot.gen = k.gen then s.values.get? slot.idx else none
  | none => none

/-- Embeds `SlotMap::len`. -/
def SlotMap.len {V : Type} (s : SlotMap V) : Nat := s.values.length

/-- Embeds `SlotMap::acquire_slot`.  Free-list branch: reuse the head (its
`gen` is kept, the new head is the link stored in its `idx`, or the free
list empties when head = tail); fresh branch: push `Slot { idx: 0, gen: 0 }`
at index `slots.len()`.  Both branches then store `value_idx` into the
acquired slot and return `KeyData { idx: slot_idx, gen: slot.gen }`. -/
def SlotMap.acquire_slot {V : Type} (s : SlotMap V) (value_idx : Nat) :
    KeyData × SlotMap V :=
  match s.freelist with
  | some fl =>
    let slot_idx := fl.head
    let slot := (s.slots.get? slot_idx).getD ⟨0, 0⟩
    let fl2 : Option FreeList :=
      if fl.tail ≠ slot_idx then some ⟨slot.idx, fl.tail⟩ else none
    (⟨slot_idx, slot.gen⟩,
     { s with freelist := fl2,
              slots := s.slots.set slot_idx ⟨value_idx, slot.gen⟩ })
  | none =>
    (⟨s.slots.length, 0⟩,
     { s with slots := s.slots ++ [⟨value_idx, 0⟩] })

/-- Embeds `SlotMap::free_slot`: bump the generation of the freed slot,
then append it to the free list (linking through the old tail's `idx`). -/
def SlotMap.free_slot {V : Type} (s : SlotMap V) (free_idx : Nat) : SlotMap V :=
  let slots1 := bumpGen s.slots free_idx
  match s.freelist with
  | some fl =>
    { s with slots := setSlotIdx slots1 fl.tail free_idx,
             freelist := some ⟨fl.head, free_idx⟩ }
  | none =>
    { s with slots := slots1, freelist := some ⟨free_idx, free_idx⟩ }

/-- Embeds `SlotMap::insert`: acquire a slot bound to the current dense
length, then push the value and the returned key. -/
def SlotMap.insert {V : Type} (s : SlotMap V) (v : V) : KeyData × SlotMap V :=
  let r := s.acquire_slot s.values.length
  (r.1, { r.2 with values := r.2.values ++ [v], keys := r.2.keys ++ [r.1] })

/-- Embeds `SlotMap::insert_with_key`: the slot (hence the key) is
reserved before the callback produces the value. -/
def SlotMap.insert_with_key {V : Type} (s : SlotMap V) (f : KeyData → V) :
    KeyData × SlotMap V :=
  let r := s.acquire_slot s.values.length
  (r.1, { r.2 with values := r.2.values ++ [f r.1], keys := r.2.keys ++ [r.1] })

/-- Embeds `SlotMap::remove`: validate like `get`; on a match, swap-remove
the dense position, retarget the displaced element's slot (when one was
displaced), then free the probe key's slot.  The returned value is the
dense element that was swap-removed. -/
def SlotMap.remove {V : Type} (s : SlotMap V) (k : KeyData) :
    Option V × SlotMap V :=
  match s.slots.get? k.idx with
  | some slot =>
    if slot.gen = k.gen then
      let value_idx := slot.idx
      let value := s.values.get? value_idx
      let keys1 := swapRemoveD s.keys value_idx
      let values1 := swapRemoveD s.values value_idx
      let slots1 :=
        match keys1.get? value_idx with
        | some k2 => setSlotIdx s.slots k2.idx value_idx
        | none => s.slots
      let s1 : SlotMap V :=
        { keys := keys1, values := values1, slots := slots1, freelist := s.freelist }
      (value, s1.free_slot k.idx)
    else (none, s)
  | none => (none, s)

/-! ## NamedSlotMap (src/collections/named_slot_map.rs)

Composes a `SlotMap<K, V>` with a `BiMap<K, String>` binding keys to
identifiers.  The identifier type is abstracted as `Nm` with an explicit
hash function. -/

structure NamedSlotMap (V Nm : Type) where
  slot_map : SlotMap V
  id_bindings : BiMap KeyData Nm
  deriving DecidableEq, Repr

/-- NamedSlotMap with no entries (`NamedSlotMap::new`). -/
def NamedSlotMap.emptyNSM {V Nm : Type} : NamedSlotMap V Nm :=
  ⟨SlotMap.emptySM, BiMap.emptyBiMap⟩

/-- Embeds `NamedSlotMap::find_key` (`id_bindings.find_key(id).unref()`). -/
def NamedSlotMap.find_key {V Nm : Type} [DecidableEq Nm]
    (hashN : Nm → Nat) (ns : NamedSlotMap V Nm) (id : Nm) : Option KeyData :=
  ns.id_bindings.find_key hashN id

/-- Embeds `NamedSlotMap::contains_id`. -/
def NamedSlotMap.contains_id {V Nm : Type} [DecidableEq Nm]
    (hashN : Nm → Nat) (ns : NamedSlotMap V Nm) (id : Nm) : Bool :=
  ns.id_bindings.contains_value hashN id

/-- Embeds `NamedSlotMap::get`. -/
def NamedSlotMap.get {V Nm : Type} (ns : NamedSlotMap V Nm) (k : KeyData) :
    Option V :=
  ns.slot_map.get k

/-- Embeds `NamedSlotMap::insert`: when the id is already bound, replace
the value in place through the arena (`get_unchecked_mut` at
`slots[key.idx].idx`, in range under the registry invariant); otherwise
insert into the arena and bind `(new_key, id)` via `insert_at_value`. -/
def NamedSlotMap.insert {V Nm : Type} [DecidableEq Nm]
    (hashK : KeyData → Nat) (hashN : Nm → Nat)
    (ns : NamedSlotMap V Nm) (id : Nm) (v : V) :
    (KeyData × Option V) × NamedSlotMap V Nm :=
  match ns.id_bindings.find_key hashN id with
  | some existing_key =>
    let vi := ((ns.slot_map.slots.get? existing_key.idx).getD ⟨0, 0⟩).idx
    ((existing_key, ns.slot_map.values.get? vi),
     { ns with slot_map :=
        { ns.slot_map with values := ns.slot_map.values.set vi v } })
  | none =>
    let r := ns.slot_map.insert v
    ((r.1, none),
     ⟨r.2, (ns.id_bindings.insert_at_value hashK hashN id r.1).2⟩)

/-- Embeds `NamedSlotMap::insert_unique`: refuse when the id exists. -/
def NamedSlotMap.insert_unique {V Nm : Type} [DecidableEq Nm]
    (hashK : KeyData → Nat) (hashN : Nm → Nat)
    (ns : NamedSlotMap V Nm) (id : Nm) (v : V) :
    Option KeyData × NamedSlotMap V Nm :=
  if ns.id_bindings.contains_value hashN id then (none, ns)
  else
    let r := ns.slot_map.insert v
    (some r.1, ⟨r.2, (ns.id_bindings.insert_at_value hashK hashN id r.1).2⟩)

/-- Embeds `NamedSlotMap::insert_with_key` (value produced by a callback
receiving the key; replacement branch calls the callback with the
existing key). -/
def NamedSlotMap.insert_with_key {V Nm : Type} [DecidableEq Nm]
    (hashK : KeyData → Nat) (hashN : Nm → Nat)
    (ns : NamedSlotMap V Nm) (id : Nm) (f : KeyData → V) :
    (KeyData × Option V) × NamedSlotMap V Nm :=
  match ns.id_bindings.find_key hashN id with
  | some existing_key =>
    let vi := ((ns.slot_map.slots.get? existing_key.idx).getD ⟨0, 0⟩).idx
    ((existing_key, ns.slot_map.values.get? vi),
     { ns with slot_map :=
        { ns.slot_map with values := ns.slot_map.values.set vi (f existing_key) } })
  | none =>
    let r := ns.slot_map.insert_with_key f
    ((r.1, none),
     ⟨r.2, (ns.id_bindings.insert_at_value hashK hashN id r.1).2⟩)

/-- Embeds `NamedSlotMap::insert_unique_with_key`. -/
def NamedSlotMap.insert_unique_with_key {V Nm : Type} [DecidableEq Nm]
    (hashK : KeyData → Nat) (hashN : Nm → Nat)
    (ns : NamedSlotMap V Nm) (id : Nm) (f : KeyData → V) :
    Option KeyData × NamedSlotMap V Nm :=
  if ns.id_bindings.contains_value hashN id then (none, ns)
  else
    let r := ns.slot_map.insert_with_key f
    (some r.1, ⟨r.2, (ns.id_bindings.insert_at_value hashK hashN id r.1).2⟩)

/-- Embeds `NamedSlotMap::remove`: remove from the arena first; on
success also remove the dictionary entry keyed by the same key
(`.unwrap()` in Rust — the arm where the dictionary lookup fails keeps
the dictionary unchanged in the model and is proved unreachable from
well-formed states). -/
def NamedSlotMap.remove {V Nm : Type} [DecidableEq Nm]
    (hashK : KeyData → Nat)
    (ns : NamedSlotMap V Nm) (k : KeyData) :
    Option (Nm × V) × NamedSlotMap V Nm :=
  match ns.slot_map.remove k with
  | (some v, sm2) =>
    match ns.id_bindings.remove_by_key hashK k with
    | some kv => (some (kv.1.2, v), ⟨sm2, kv.2⟩)
    | none => (none, ⟨sm2, ns.id_bindings⟩)
  | (none, _) => (none, ns)

/-! ## Operation traces

Sequences of public mutating operations, used to quantify over all
reachable states of a `SlotMap` and of a `NamedSlotMap`. -/

inductive ArenaOp (V : Type) where
  | ins (v : V)
  | del (k : KeyData)

/-- Applies one public arena operation, discarding the returned data. -/
def applyAOp {V : Type} (s : SlotMap V) : ArenaOp V → SlotMap V
  | .ins v => (s.insert v).2
  | .del k => (s.remove k).2

/-- Applies a sequence of public arena operations left to right. -/
def applyAOps {V : Type} (s : SlotMap V) : List (ArenaOp V) → SlotMap V
  | [] => s
  | op :: rest => applyAOps (applyAOp s op) rest

/-- A trace is honest when every `remove` argument whose generation test
would pass is a key that is actually live (one of the keys currently held
in the dense `keys` column).  Keys obtainable through the public Rust API
(keys returned by `insert`, stale copies of them, `NULL`, `default()`)
all satisfy this: `KeyData`'s fields are private, so a caller cannot
forge a key carrying the generation of a freed slot. -/
def honestA {V : Type} (s : SlotMap V) : List (ArenaOp V) → Bool
  | [] => true
  | op :: rest =>
    (match op with
     | .del k => !s.contains_key k || s.keys.contains k
     | .ins _ => true) && honestA (applyAOp s op) rest

/-- No operation in the trace is a `remove` with exactly this key. -/
def avoidsDel {V : Type} (k : KeyData) : List (ArenaOp V) → Bool
  | [] => true
  | .del k2 :: rest => (k2 ≠ k : Bool) && avoidsDel k rest
  | .ins _ :: rest => avoidsDel k rest

inductive NOp (V Nm : Type) where
  | ins (id : Nm) (v : V)
  | insU (id : Nm) (v : V)
  | insW (id : Nm) (f : KeyData → V)
  | insUW (id : Nm) (f : KeyData → V)
  | del (k : KeyData)

/-- Applies one public registry operation, discarding the returned data. -/
def applyNOp {V Nm : Type} [DecidableEq Nm]
    (hashK : KeyData → Nat) (hashN : Nm → Nat)
    (ns : NamedSlotMap V Nm) : NOp V Nm → NamedSlotMap V Nm
  | .ins id v => (ns.insert hashK hashN id v).2
  | .insU id v => (ns.insert_unique hashK hashN id v).2
  | .insW id f => (ns.insert_with_key hashK hashN id f).2
  | .insUW id f => (ns.insert_unique_with_key hashK hashN id f).2
  | .del k => (ns.remove hashK k).2

/-- Applies a sequence of public registry operations left to right. -/
def applyNOps {V Nm : Type} [DecidableEq Nm]
    (hashK : KeyData → Nat) (hashN : Nm → Nat)
    (ns : NamedSlotMap V Nm) : List (NOp V Nm) → NamedSlotMap V Nm
  | [] => ns
  | op :: rest => applyNOps hashK hashN (applyNOp hashK hashN ns op) rest

/-- Honesty for registry traces, as for `honestA`: every `remove`
argument that would pass the generation test is a live key. -/
def honestN {V Nm : Type} [DecidableEq Nm]
    (hashK : KeyData → Nat) (hashN : Nm → Nat)
    (ns : NamedSlotMap V Nm) : List (NOp V Nm) → Bool
  | [] => true
  | op :: rest =>
    (match op with
     | .del k => !ns.slot_map.contains_key k || ns.slot_map.keys.contains k
     | _ => true) && honestN hashK hashN (applyNOp hashK hashN ns op) rest

/-! ## Well-formedness predicates -/

/-- Well-formed `Map`: the three columns are parallel and every cached
hash is the hash of the key it is stored next to.  Every map built by the
(non-buggy) public operations satisfies this. -/
def MapWF {K V : Type} (hash : K → Nat) (m : Map K V) : Prop :=
  m.hashes = m.keys.map hash ∧ m.keys.length = m.values.length

/-- Well-formed `BiMap`: the four columns are parallel and both hash
columns cache the hashes of their neighbours. -/
def BiMapWF {K V : Type} (hashK : K → Nat) (hashV : V → Nat) (b : BiMap K V) : Prop :=
  b.key_hashes = b.keys.map hashK ∧ b.value_hashes = b.values.map hashV ∧
    b.keys.length = b.values.length

/-- Structural invariant of a `SlotMap`, parametrised by the (ghost) list
`fl` of slot indices currently on the intrusive free list, in order from
head to tail.  It packages: the dense columns are parallel; every dense
key's slot points back at its dense position with a matching generation;
the free list indices are distinct, in range, dead (no dense key uses
them), have already been freed at least once (generation at least 1), are
linked through their `idx` fields, agree with the stored head/tail pair;
and every slot is either live or on the free list. -/
structure ArenaInv {V : Type} (s : SlotMap V) (fl : List Nat) : Prop where
  len_kv : s.keys.length = s.values.length
  dense : ∀ i k, s.keys.get? i = some k →
    ∃ sl, s.slots.get? k.idx = some sl ∧ sl.idx = i ∧ sl.gen = k.gen
  fl_nodup : fl.Nodup
  fl_lt : ∀ j, j ∈ fl → j < s.slots.length
  fl_dead : ∀ j, j ∈ fl → ∀ i k, s.keys.get? i = some k → k.idx ≠ j
  fl_gen : ∀ j sl, j ∈ fl → s.slots.get? j = some sl → 1 ≤ sl.gen
  fl_links : ∀ n j j2, fl.get? n = some j → fl.get? (n + 1) = some j2 →
    ∃ sl, s.slots.get? j = some sl ∧ sl.idx = j2
  fl_repr : match s.freelist with
    | none => fl = []
    | some f => fl.head? = some f.head ∧ fl.getLast? = some f.tail
  partition : ∀ j, j < s.slots.length →
    (∃ i k, s.keys.get? i = some k ∧ k.idx = j) ∨ j ∈ fl

/-- Invariant of the composite registry: the arena invariant holds, the
dictionary is well formed, and the dense key column of the arena is a
permutation of the dictionary's key column (hence the two hold exactly
the same set of keys). -/
def NamedInv {V Nm : Type} (hashK : KeyData → Nat) (hashN : Nm → Nat)
    (ns : NamedSlotMap V Nm) : Prop :=
  (∃ fl, ArenaInv ns.slot_map fl) ∧
    BiMapWF hashK hashN ns.id_bindings ∧
    List.Perm ns.slot_map.keys ns.id_bindings.keys

/-! ## List helper lemmas -/

theorem get?_some_lt {α : Type} {l : List α} {n : Nat} {a : α}
    (h : l.get? n = some a) : n < l.length := by
  by_contra hn
  rw [List.get?_len_le (Nat.le_of_not_lt hn)] at h
  exact Option.noConfusion h

theorem get?_of_lt {α : Type} {l : List α} {n : Nat} (h : n < l.length) :
    ∃ a, l.get? n = some a := by
  cases hq : l.get? n with
  | some a => exact ⟨a, rfl⟩
  | none =>
    rw [List.get?_eq_none] at hq
    omega

theorem getLast?_last {α : Type} {l : List α} (h : 0 < l.length) :
    ∃ a, l.getLast? = some a ∧ l.get? (l.length - 1) = some a := by
  obtain ⟨a, ha⟩ := get?_of_lt (show l.length - 1 < l.length by omega)
  refine ⟨a, ?_, ha⟩
  rw [List.getLast?_eq_get? l]
  exact ha

theorem get?_set {α : Type} (l : List α) (i j : Nat) (a : α) :
    (l.set i a).get? j =
      if j = i ∧ i < l.length then some a else l.get? j := by
  by_cases hji : j = i
  · subst hji
    by_cases hi : j < l.length
    · simp only [hi, and_true, if_pos rfl, if_true]
      exact List.get?_set_eq_of_lt a hi
    · rw [List.set_eq_of_length_le (Nat.le_of_not_lt hi)]
      simp [hi]
  · rw [if_neg (fun hc => hji hc.1)]
    exact List.get?_set_ne a l (fun hc => hji hc.symm)

theorem swapRemoveD_def_of_lt {α : Type} {l : List α} {i : Nat} {a : α}
    (hl : l.getLast? = some a) (h : i < l.length) :
    swapRemoveD l i = (l.set i a).dropLast := by
  unfold swapRemoveD
  rw [hl]
  simp [h]

theorem length_swapRemoveD {α : Type} {l : List α} {i : Nat} (h : i < l.length) :
    (swapRemoveD l i).length = l.length - 1 := by
  obtain ⟨a, ha, _⟩ := getLast?_last (Nat.lt_of_le_of_lt (Nat.zero_le i) h)
  rw [swapRemoveD_def_of_lt ha h, List.length_dropLast, List.length_set]

theorem get?_swapRemoveD {α : Type} {l : List α} {i j : Nat}
    (hi : i < l.length) (hj : j < l.length - 1) :
    (swapRemoveD l i).get? j =
      if j = i then l.get? (l.length - 1) else l.get? j := by
  obtain ⟨a, ha, ha2⟩ := getLast?_last (Nat.lt_of_le_of_lt (Nat.zero_le i) hi)
  rw [swapRemoveD_def_of_lt ha hi, List.dropLast_eq_take, List.length_set,
    List.get?_take hj, get?_set, ha2]
  by_cases hji : j = i
  · simp [hji, hi]
  · simp [hji]

theorem swapRemoveD_concat {α : Type} {l : List α} {i : Nat} {a : α}
    (hl : l.getLast? = some a) (h : i < l.length) :
    swapRemoveD l i ++ [a] = l.set i a := by
  have hlen : 0 < (l.set i a).length := by rw [List.length_set]; omega
  have hne : l.set i a ≠ [] := by
    intro hc
    rw [hc] at hlen
    exact Nat.lt_irrefl 0 hlen
  have hlast : (l.set i a).getLast hne = a := by
    obtain ⟨b, hb, hb2⟩ := getLast?_last hlen
    rw [List.length_set] at hb2
    rw [get?_set] at hb2
    have hba : b = a := by
      by_cases hc : l.length - 1 = i ∧ i < l.length
      · rw [if_pos hc] at hb2
        exact (Option.some.injEq _ _).mp hb2.symm
      · rw [if_neg hc] at hb2
        have : l.get? (l.length - 1) = some a := by
          rw [← List.getLast?_eq_get? l]
          exact hl
        rw [this] at hb2
        exact (Option.some.injEq _ _).mp hb2.symm
    have := List.getLast?_eq_getLast (l.set i a) hne
    rw [hb] at this
    rw [hba] at this
    exact ((Option.some.injEq _ _).mp this).symm
  rw [swapRemoveD_def_of_lt hl h]
  conv_rhs => rw [← List.dropLast_concat_getLast hne]
  rw [hlast]

theorem swapRemoveD_perm_eraseIdx {α : Type} {l : List α} {i : Nat}
    (h : i < l.length) : List.Perm (swapRemoveD l i) (l.eraseIdx i) := by
  obtain ⟨a, ha, _⟩ := getLast?_last (Nat.lt_of_le_of_lt (Nat.zero_le i) h)
  apply (List.perm_append_right_iff [a]).mp
  rw [swapRemoveD_concat ha h, List.set_eq_take_cons_drop a h,
    List.eraseIdx_eq_take_drop_succ, List.append_assoc]
  apply List.Perm.append_left
  exact (List.perm_append_singleton a _).symm

theorem eraseIdx_perm_erase {α : Type} [DecidableEq α] :
    ∀ (l : List α) (i : Nat) (a : α), l.get? i = some a →
      List.Perm (l.eraseIdx i) (l.erase a)
  | [], _, _, h => by simp at h
  | x :: t, 0, a, h => by
    have hx : x = a := by simpa using h
    subst hx
    rw [List.erase_cons_head]
    exact List.Perm.refl t
  | x :: t, i + 1, a, h => by
    have ht : t.get? i = some a := by simpa using h
    by_cases hxa : x = a
    · subst hxa
      rw [List.erase_cons_head]
      have hmem : x ∈ t := List.get?_mem ht
      exact ((eraseIdx_perm_erase t i x ht).cons x).trans
        (List.perm_cons_erase hmem).symm
    · rw [List.erase_cons_tail (by simpa using hxa)]
      exact (eraseIdx_perm_erase t i a ht).cons x

theorem swapRemoveD_perm_erase {α : Type} [DecidableEq α] {l : List α}
    {i : Nat} {a : α} (h : l.get? i = some a) :
    List.Perm (swapRemoveD l i) (l.erase a) :=
  (swapRemoveD_perm_eraseIdx (get?_some_lt h)).trans (eraseIdx_perm_erase l i a h)

theorem hashScan_some {α : Type} [DecidableEq α] {h : Nat} {x : α} :
    ∀ {ps : List (Nat × α)} {i : Nat}, hashScan h x ps = some i →
      ∃ p, ps.get? i = some p ∧ p.1 = h ∧ p.2 = x := by
  intro ps
  induction ps with
  | nil => intro i hi; simp [hashScan] at hi
  | cons p rest ih =>
    intro i hi
    by_cases hp : p.1 = h ∧ p.2 = x
    · simp [hashScan, hp] at hi
      subst hi
      exact ⟨p, rfl, hp⟩
    · simp [hashScan, hp] at hi
      obtain ⟨j, hj, hji⟩ := hi
      obtain ⟨q, hq, hq2⟩ := ih hj
      subst hji
      exact ⟨q, by simpa using hq, hq2⟩

theorem hashScan_first {α : Type} [DecidableEq α] {h : Nat} {x : α} :
    ∀ {ps : List (Nat × α)} {i : Nat}, hashScan h x ps = some i →
      ∀ j p, j < i → ps.get? j = some p → ¬(p.1 = h ∧ p.2 = x) := by
  intro ps
  induction ps with
  | nil => intro i hi; simp [hashScan] at hi
  | cons p rest ih =>
    intro i hi j q hj hq
    by_cases hp : p.1 = h ∧ p.2 = x
    · simp [hashScan, hp] at hi
      omega
    · simp [hashScan, hp] at hi
      obtain ⟨i2, hi2, hii⟩ := hi
      subst hii
      cases j with
      | zero =>
        have hqp : p = q := by simpa using hq
        subst hqp
        exact hp
      | succ j2 =>
        exact ih hi2 j2 q (by omega) (by simpa using hq)

theorem hashScan_none {α : Type} [DecidableEq α] {h : Nat} {x : α} :
    ∀ {ps : List (Nat × α)}, hashScan h x ps = none →
      ∀ p ∈ ps, ¬(p.1 = h ∧ p.2 = x) := by
  intro ps
  induction ps with
  | nil => intro _ p hp; simp at hp
  | cons p rest ih =>
    intro hn q hq
    by_cases hp : p.1 = h ∧ p.2 = x
    · simp [hashScan, hp] at hn
    · simp [hashScan, hp] at hn
      rcases List.mem_cons.mp hq with hq1 | hq2
      · subst hq1; exact hp
      · exact ih hn q hq2

theorem hashScan_isSome_of_mem {α : Type} [DecidableEq α] {h : Nat} {x : α}
    {ps : List (Nat × α)} {p : Nat × α} (hmem : p ∈ ps)
    (h1 : p.1 = h) (h2 : p.2 = x) : (hashScan h x ps).isSome := by
  cases hs : hashScan h x ps with
  | some i => rfl
  | none => exact absurd ⟨h1, h2⟩ (hashScan_none hs p hmem)

theorem hashScan_append_some {α : Type} [DecidableEq α] {h : Nat} {x : α} :
    ∀ {ps qs : List (Nat × α)} {i : Nat}, hashScan h x ps = some i →
      hashScan h x (ps ++ qs) = some i := by
  intro ps
  induction ps with
  | nil => intro qs i hi; simp [hashScan] at hi
  | cons p rest ih =>
    intro qs i hi
    by_cases hp : p.1 = h ∧ p.2 = x
    · simp [hashScan, hp] at hi ⊢
      exact hi
    · simp [hashScan, hp] at hi ⊢
      obtain ⟨j, hj, hji⟩ := hi
      exact ⟨j, ih hj, hji⟩

theorem eqScan_some {α : Type} [DecidableEq α] {x : α} :
    ∀ {l : List α} {i : Nat}, eqScan x l = some i → l.get? i = some x := by
  intro l
  induction l with
  | nil => intro i hi; simp [eqScan] at hi
  | cons a rest ih =>
    intro i hi
    by_cases ha : a = x
    · simp [eqScan, ha] at hi
      subst hi
      simp [ha]
    · simp [eqScan, ha] at hi
      obtain ⟨j, hj, hji⟩ := hi
      subst hji
      simpa using ih hj

theorem eqScan_first {α : Type} [DecidableEq α] {x : α} :
    ∀ {l : List α} {i : Nat}, eqScan x l = some i →
      ∀ j, j < i → l.get? j ≠ some x := by
  intro l
  induction l with
  | nil => intro i hi; simp [eqScan] at hi
  | cons a rest ih =>
    intro i hi j hj hq
    by_cases ha : a = x
    · simp [eqScan, ha] at hi
      omega
    · simp [eqScan, ha] at hi
      obtain ⟨i2, hi2, hii⟩ := hi
      subst hii
      cases j with
      | zero => exact ha (by simpa using hq)
      | succ j2 => exact ih hi2 j2 (by omega) (by simpa using hq)

theorem eqScan_none {α : Type} [DecidableEq α] {x : α} :
    ∀ {l : List α}, eqScan x l = none → x ∉ l := by
  intro l
  induction l with
  | nil => intro _ hp; simp at hp
  | cons a rest ih =>
    intro hn hmem
    by_cases ha : a = x
    · simp [eqScan, ha] at hn
    · simp [eqScan, ha] at hn
      rcases List.mem_cons.mp hmem with h1 | h2
      · exact ha h1.symm
      · exact ih hn h2

theorem eqScan_isSome_of_mem {α : Type} [DecidableEq α] {x : α}
    {l : List α} (hmem : x ∈ l) : (eqScan x l).isSome := by
  cases hs : eqScan x l with
  | some i => rfl
  | none => exact absurd hmem (eqScan_none hs)

theorem eqScan_append_some {α : Type} [DecidableEq α] {x : α} :
    ∀ {l q : List α} {i : Nat}, eqScan x l = some i →
      eqScan x (l ++ q) = some i := by
  intro l
  induction l with
  | nil => intro q i hi; simp [eqScan] at hi
  | cons a rest ih =>
    intro q i hi
    by_cases ha : a = x
    · simp [eqScan, ha] at hi ⊢
      exact hi
    · simp [eqScan, ha] at hi ⊢
      obtain ⟨j, hj, hji⟩ := hi
      exact ⟨j, ih hj, hji⟩

theorem hashScan_mapzip {α : Type} [DecidableEq α] (f : α → Nat) (x : α) :
    ∀ (l : List α), hashScan (f x) x ((l.map f).zip l) = eqScan x l := by
  intro l
  induction l with
  | nil => rfl
  | cons a t ih =>
    show hashScan (f x) x ((f a, a) :: ((t.map f).zip t)) = eqScan x (a :: t)
    by_cases hax : a = x
    · subst hax
      simp [hashScan, eqScan]
    · have hcond : ¬(f a = f x ∧ a = x) := fun hc => hax hc.2
      simp only [hashScan, eqScan, if_neg hcond, if_neg hax, ih]

/-! ## Claim theorems: concrete refutations and bug demonstrations -/

/-- C1: refuted by the code.  In the two-entry map
`{0 ↦ 10, 1 ↦ 20}` (built by `insert`, hashes cached correctly),
`remove_by_key(&0)` targets index 0 but — because
`Map::remove_by_index` swap-removes the `keys` column twice — it returns
the pair `(1, 10)`, whose key was never bound to the value `10`, and
leaves the columns at lengths `keys = 0`, `values = 1`, `hashes = 1`.
The claim asserts equal lengths afterwards and that the returned pair is
the one bound to the probe key; the first two conjuncts show the claimed
pre-state (key 0 bound to 10), the last shows the corrupted outcome. -/
theorem c1_map_remove_by_key_breaks_parallel_columns :
    Map.contains_key (fun n => n) (⟨[0, 1], [10, 20], [0, 1]⟩ : Map Nat Nat) 0 = true ∧
    Map.find_value (fun n => n) (⟨[0, 1], [10, 20], [0, 1]⟩ : Map Nat Nat) 0 = some 10 ∧
    Map.remove_by_key (fun n => n) (⟨[0, 1], [10, 20], [0, 1]⟩ : Map Nat Nat) 0 =
      some (some ((1, 10), (⟨[], [20], [1]⟩ : Map Nat Nat))) := by
  refine ⟨rfl, rfl, ?_⟩
  rfl

/-- C2: refuted by the code.  `BiMap::pop` pops `key_hashes`, `keys`
and `values` but not `value_hashes`, so popping the single-entry bimap
`{1 ↦ 10}` (built by `insert_at_key`) leaves `value_hashes` with one
stale entry while the other three columns are empty. -/
theorem c2_bimap_pop_leaks_value_hash :
    BiMap.pop (BiMap.insert_at_key (fun n => n) (fun n => n)
        (BiMap.emptyBiMap : BiMap Nat Nat) 1 10).2 =
      some ((1, 10), (⟨[], [], [], [10]⟩ : BiMap Nat Nat)) := by
  rfl

/-- C6: refuted by the code.  On the single-entry map `{0 ↦ 10}` (built
by `insert`), `remove_by_index(0)` panics: after `hashes.swap_remove(0)`
and the first (discarded) `keys.swap_remove(0)`, the second
`keys.swap_remove(0)` indexes the now-empty `keys` vector, an
out-of-range `Vec::swap_remove`.  In the model the outer `none` is that
panic. -/
theorem c6_map_remove_by_index_panics :
    Map.remove_by_index (Map.insert (fun n => n)
        (Map.emptyMap : Map Nat Nat) 0 10).2 0 = none := by
  rfl

/-- C4 counterexample: the very first `insert` into a fresh `SlotMap`
acquires slot 0 at generation 0 and therefore returns a key equal to the
all-zero `NULL` sentinel, contradicting the claim that no insert ever
returns `NULL`. -/
theorem c4_counterexample_first_insert_returns_null :
    (SlotMap.insert (SlotMap.emptySM : SlotMap Nat) 3200).1 = KeyData.NULL := by
  rfl

/-- C5 counterexample: in the bimap built by `insert_at_key(1, 10)` then
`insert_at_key(2, 10)` (two keys bound to the equal value 10),
immediately after the second `insert_at_key` the claim demands
`find_key(&10) == Some(&2)`, but the value scan finds the earlier entry
first and returns `Some(1)`.  The result is independent of the hash
function; the identity hash instantiates it. -/
theorem c5_counterexample_find_key_returns_earlier_binding :
    BiMap.find_key (fun n => n)
        (BiMap.insert_at_key (fun n => n) (fun n => n)
          (BiMap.insert_at_key (fun n => n) (fun n => n)
            (BiMap.emptyBiMap : BiMap Nat Nat) 1 10).2 2 10).2 10 = some 1 ∧
    (some 1 : Option Nat) ≠ some 2 := by
  exact ⟨rfl, by decide⟩

theorem eqScan_first_occurrence {α : Type} [DecidableEq α] {x : α} :
    ∀ {l : List α} {i : Nat}, l.get? i = some x →
      (∀ j, j < i → l.get? j ≠ some x) → eqScan x l = some i := by
  intro l
  induction l with
  | nil => intro i hi _; simp at hi
  | cons a rest ih =>
    intro i hi hf
    cases i with
    | zero =>
      have ha : a = x := by simpa using hi
      simp [eqScan, ha]
    | succ i2 =>
      have ha : a ≠ x := by
        intro hc
        exact hf 0 (Nat.succ_pos i2) (by simpa using hc)
      have hr : rest.get? i2 = some x := by simpa using hi
      have hfr : ∀ j, j < i2 → rest.get? j ≠ some x := by
        intro j hj hc
        exact hf (j + 1) (by omega) (by simpa using hc)
      simp [eqScan, ha, ih hr hfr]

theorem swapRemoveChk_eq_some {α : Type} {l : List α} {i : Nat} {a : α}
    (h : l.get? i = some a) : swapRemoveChk l i = some (a, swapRemoveD l i) := by
  unfold swapRemoveChk
  rw [h]

/-- Under the well-formedness invariant, the hash-filtered key scan of a
`Map` finds exactly the first index whose key equals the probe. -/
theorem map_index_of_key_wf {K V : Type} [DecidableEq K]
    {hash : K → Nat} {m : Map K V} (hw : m.hashes = m.keys.map hash) (k : K) :
    m.index_of_key hash k = eqScan k m.keys := by
  unfold Map.index_of_key Map.index_of_hashed_key
  rw [hw]
  exact hashScan_mapzip hash k m.keys

/-- Under the well-formedness invariant, the hash-filtered key scan of a
`BiMap` finds exactly the first index whose key equals the probe. -/
theorem bimap_index_of_key_wf {K V : Type} [DecidableEq K]
    {hashK : K → Nat} {b : BiMap K V} (hw : b.key_hashes = b.keys.map hashK) (k : K) :
    b.index_of_key hashK k = eqScan k b.keys := by
  unfold BiMap.index_of_key BiMap.index_of_hashed_key
  rw [hw]
  exact hashScan_mapzip hashK k b.keys

/-- Under the well-formedness invariant, the hash-filtered value scan of
a `BiMap` finds exactly the first index whose value equals the probe. -/
theorem bimap_index_of_value_wf {K V : Type} [DecidableEq V]
    {hashV : V → Nat} {b : BiMap K V} (hw : b.value_hashes = b.values.map hashV) (v : V) :
    b.index_of_value hashV v = eqScan v b.values := by
  unfold BiMap.index_of_value BiMap.index_of_hashed_value
  rw [hw]
  exact hashScan_mapzip hashV v b.values

/-- C9: confirmed.  For every well-formed `Map` and probe key `k`:
`contains_key k = true` implies `maybe_contains_key k = true` (no false
negative), and whenever `maybe_contains_key k` is true while
`contains_key k` is false there is a stored key, different from `k`,
whose hash equals `hash k` (a genuine hash collision). -/
theorem c9_maybe_contains_key_sound {K V : Type} [DecidableEq K]
    (hash : K → Nat) (m : Map K V) (k : K) (hw : MapWF hash m) :
    (Map.contains_key hash m k = true → Map.maybe_contains_key hash m k = true) ∧
    (Map.maybe_contains_key hash m k = true → Map.contains_key hash m k = false →
      ∃ k2, k2 ∈ m.keys ∧ k2 ≠ k ∧ hash k2 = hash k) := by
  constructor
  · intro hc
    unfold Map.contains_key at hc
    rw [map_index_of_key_wf hw.1] at hc
    obtain ⟨i, hi⟩ := Option.isSome_iff_exists.mp hc
    have hk : m.keys.get? i = some k := eqScan_some hi
    have hmem : hash k ∈ m.hashes := by
      rw [hw.1]
      exact List.mem_map_of_mem hash (List.get?_mem hk)
    unfold Map.maybe_contains_key
    rw [List.any_eq_true]
    exact ⟨hash k, hmem, by simp⟩
  · intro hm hc
    unfold Map.maybe_contains_key at hm
    rw [List.any_eq_true] at hm
    obtain ⟨h2, hmem, heq⟩ := hm
    have heq2 : h2 = hash k := by simpa using heq
    subst heq2
    rw [hw.1] at hmem
    obtain ⟨k2, hk2mem, hk2⟩ := List.mem_map.mp hmem
    refine ⟨k2, hk2mem, ?_, hk2⟩
    intro hcc
    subst hcc
    unfold Map.contains_key at hc
    rw [map_index_of_key_wf hw.1] at hc
    have := eqScan_isSome_of_mem hk2mem
    rw [hc] at this
    exact Bool.noConfusion this

/-- Witness for C9 at a concrete collision: the map `{0 ↦ 10}` with hash
function `n % 2` reports `maybe_contains_key 2` (hash collision between
the stored key 0 and the probe 2) while `contains_key 2` is false, and
the theorem produces the colliding stored key. -/
theorem c9_witness :
    ∃ k2, k2 ∈ (⟨[0], [10], [0]⟩ : Map Nat Nat).keys ∧ k2 ≠ 2 ∧ k2 % 2 = 2 % 2 :=
  (c9_maybe_contains_key_sound (fun n => n % 2) (⟨[0], [10], [0]⟩ : Map Nat Nat) 2
    ⟨rfl, rfl⟩).2 (by rfl) (by rfl)

theorem insert_at_key_found {K V : Type} [DecidableEq K] [DecidableEq V]
    (hashK : K → Nat) (hashV : V → Nat) (b : BiMap K V) (k : K) (v : V) {i : Nat}
    (h : b.index_of_hashed_key (hashK k) k = some i) :
    (b.insert_at_key hashK hashV k v).2 =
      { b with value_hashes := b.value_hashes.set i (hashV v),
               values := b.values.set i v } := by
  simp only [BiMap.insert_at_key, h]

theorem insert_at_key_notfound {K V : Type} [DecidableEq K] [DecidableEq V]
    (hashK : K → Nat) (hashV : V → Nat) (b : BiMap K V) (k : K) (v : V)
    (h : b.index_of_hashed_key (hashK k) k = none) :
    (b.insert_at_key hashK hashV k v).2 =
      ⟨b.keys ++ [k], b.values ++ [v],
       b.key_hashes ++ [hashK k], b.value_hashes ++ [hashV v]⟩ := by
  simp only [BiMap.insert_at_key, h]

/-- C5 amended: confirmed for the amended statement.  On a well-formed
`BiMap`, immediately after `insert_at_key(k, v)`:
`find_value(&k) == Some(&v)`, and — provided no entry's value equalled
`v` before the insert — `find_key(&v) == Some(&k)`.  (The original claim
fails when `v` already occurs at a lower index bound to a different key:
`find_key` then returns that earlier key, see the counterexample.) -/
theorem c5_amended_insert_at_key_lookup {K V : Type} [DecidableEq K] [DecidableEq V]
    (hashK : K → Nat) (hashV : V → Nat) (b : BiMap K V) (k : K) (v : V)
    (hw : BiMapWF hashK hashV b) (hvnot : v ∉ b.values) :
    BiMap.find_value hashK (b.insert_at_key hashK hashV k v).2 k = some v ∧
    BiMap.find_key hashV (b.insert_at_key hashK hashV k v).2 v = some k := by
  obtain ⟨hw1, hw2, hw3⟩ := hw
  have hscan : b.index_of_hashed_key (hashK k) k = eqScan k b.keys :=
    bimap_index_of_key_wf hw1 k
  cases hcase : eqScan k b.keys with
  | some i =>
    have hki : b.keys.get? i = some k := eqScan_some hcase
    have hilt : i < b.keys.length := get?_some_lt hki
    have hiltv : i < b.values.length := hw3 ▸ hilt
    rw [insert_at_key_found hashK hashV b k v (hscan.trans hcase)]
    constructor
    · show (hashScan (hashK k) k (b.key_hashes.zip b.keys)).bind
        (fun idx => (b.values.set i v).get? idx) = some v
      rw [hw1, hashScan_mapzip, hcase]
      show (b.values.set i v).get? i = some v
      rw [get?_set]
      simp [hiltv]
    · have hvwf : (b.value_hashes.set i (hashV v) : List Nat) =
          (b.values.set i v).map hashV := by
        rw [hw2, List.map_set]
      show (hashScan (hashV v) v
          ((b.value_hashes.set i (hashV v)).zip (b.values.set i v))).bind
        (fun idx => b.keys.get? idx) = some k
      rw [hvwf, hashScan_mapzip]
      have hev : eqScan v (b.values.set i v) = some i := by
        apply eqScan_first_occurrence
        · rw [get?_set]
          simp [hiltv]
        · intro j hj hc
          rw [get?_set, if_neg (fun hji => by omega)] at hc
          exact hvnot (List.get?_mem hc)
      rw [hev]
      exact hki
  | none =>
    have hknot : k ∉ b.keys := eqScan_none hcase
    rw [insert_at_key_notfound hashK hashV b k v (hscan.trans hcase)]
    have hkwf : (b.key_hashes ++ [hashK k] : List Nat) =
        (b.keys ++ [k]).map hashK := by
      rw [hw1, List.map_append]
      rfl
    have hvwf : (b.value_hashes ++ [hashV v] : List Nat) =
        (b.values ++ [v]).map hashV := by
      rw [hw2, List.map_append]
      rfl
    have hek : eqScan k (b.keys ++ [k]) = some b.keys.length := by
      apply eqScan_first_occurrence
      · exact List.get?_concat_length b.keys k
      · intro j hj hc
        rw [List.get?_append hj] at hc
        exact hknot (List.get?_mem hc)
    have hev : eqScan v (b.values ++ [v]) = some b.values.length := by
      apply eqScan_first_occurrence
      · exact List.get?_concat_length b.values v
      · intro j hj hc
        rw [List.get?_append hj] at hc
        exact hvnot (List.get?_mem hc)
    constructor
    · show (hashScan (hashK k) k
          ((b.key_hashes ++ [hashK k]).zip (b.keys ++ [k]))).bind
        (fun idx => (b.values ++ [v]).get? idx) = some v
      rw [hkwf, hashScan_mapzip, hek]
      show (b.values ++ [v]).get? b.keys.length = some v
      rw [hw3]
      exact List.get?_concat_length b.values v
    · show (hashScan (hashV v) v
          ((b.value_hashes ++ [hashV v]).zip (b.values ++ [v]))).bind
        (fun idx => (b.keys ++ [k]).get? idx) = some k
      rw [hvwf, hashScan_mapzip, hev]
      show (b.keys ++ [k]).get? b.values.length = some k
      rw [← hw3]
      exact List.get?_concat_length b.keys k

/-- Witness for the amended C5 on a concrete input: inserting `(2, 20)`
into the well-formed one-entry bimap `{1 ↦ 10}` (value 20 not present)
makes both lookup directions return the inserted binding. -/
theorem c5_amended_witness :
    BiMap.find_value (fun n => n)
      ((⟨[1], [10], [1], [10]⟩ : BiMap Nat Nat).insert_at_key
        (fun n => n) (fun n => n) 2 20).2 2 = some 20 ∧
    BiMap.find_key (fun n => n)
      ((⟨[1], [10], [1], [10]⟩ : BiMap Nat Nat).insert_at_key
        (fun n => n) (fun n => n) 2 20).2 20 = some 2 :=
  c5_amended_insert_at_key_lookup (fun n => n) (fun n => n)
    (⟨[1], [10], [1], [10]⟩ : BiMap Nat Nat) 2 20 ⟨rfl, rfl, rfl⟩ (by decide)

/-- C10: confirmed.  On a well-formed map whose first entry for key `k`
sits at index `i` with value `v1`, inserting `(k, v2)` with
`insert_unique_value` for a value `v2` not present in the map returns
`None` and appends a second entry with the duplicate key `k`; afterwards
`find_value`, `contains_key` and `remove_by_key` all operate on the
lowest-index entry whose key equals `k`: the lookup returns `v1`, and
`remove_by_key` returns exactly the pair `(k, v1)`. -/
theorem c10_insert_unique_value_duplicates_key {K V : Type} [DecidableEq K] [DecidableEq V]
    (hash : K → Nat) (m : Map K V) (k : K) (v1 v2 : V) (i : Nat)
    (hw : MapWF hash m)
    (hidx : m.index_of_key hash k = some i)
    (hv1 : m.values.get? i = some v1)
    (hv2 : m.contains_value v2 = false) :
    (m.insert_unique_value hash k v2).1 = none ∧
    (m.insert_unique_value hash k v2).2 =
      ⟨m.keys ++ [k], m.values ++ [v2], m.hashes ++ [hash k]⟩ ∧
    (m.insert_unique_value hash k v2).2.keys.get? i = some k ∧
    (m.insert_unique_value hash k v2).2.keys.get? m.keys.length = some k ∧
    (∀ j, j < i → (m.insert_unique_value hash k v2).2.keys.get? j ≠ some k) ∧
    Map.find_value hash (m.insert_unique_value hash k v2).2 k = some v1 ∧
    Map.contains_key hash (m.insert_unique_value hash k v2).2 k = true ∧
    ∃ m2, Map.remove_by_key hash (m.insert_unique_value hash k v2).2 k =
      some (some ((k, v1), m2)) := by
  obtain ⟨hw1, hw2⟩ := hw
  have he : eqScan k m.keys = some i := by
    rw [← map_index_of_key_wf hw1]
    exact hidx
  have hki : m.keys.get? i = some k := eqScan_some he
  have hiK : i < m.keys.length := get?_some_lt hki
  have hiV : i < m.values.length := get?_some_lt hv1
  have hins : m.insert_unique_value hash k v2 =
      (none, ⟨m.keys ++ [k], m.values ++ [v2], m.hashes ++ [hash k]⟩) := by
    unfold Map.insert_unique_value
    simp [hv2]
  rw [hins]
  have hidx2 : hashScan (hash k) k
      ((m.hashes ++ [hash k]).zip (m.keys ++ [k])) = some i := by
    have hw1b : (m.hashes ++ [hash k] : List Nat) = (m.keys ++ [k]).map hash := by
      rw [hw1, List.map_append]
      rfl
    rw [hw1b, hashScan_mapzip]
    exact eqScan_append_some he
  refine ⟨rfl, rfl, ?_, List.get?_concat_length m.keys k, ?_, ?_, ?_, ?_⟩
  · show (m.keys ++ [k]).get? i = some k
    rw [List.get?_append hiK]
    exact hki
  · intro j hj hc
    have hj2 : m.keys.get? j = some k := by
      rwa [List.get?_append (by omega)] at hc
    exact eqScan_first he j hj hj2
  · show (hashScan (hash k) k ((m.hashes ++ [hash k]).zip (m.keys ++ [k]))).bind
      (fun idx => (m.values ++ [v2]).get? idx) = some v1
    rw [hidx2]
    show (m.values ++ [v2]).get? i = some v1
    rw [List.get?_append hiV]
    exact hv1
  · show (hashScan (hash k) k
      ((m.hashes ++ [hash k]).zip (m.keys ++ [k]))).isSome = true
    rw [hidx2]
    rfl
  · refine ⟨⟨swapRemoveD (swapRemoveD (m.keys ++ [k]) i) i,
      swapRemoveD (m.values ++ [v2]) i, swapRemoveD (m.hashes ++ [hash k]) i⟩, ?_⟩
    have hIdxKey : Map.index_of_key hash
        (⟨m.keys ++ [k], m.values ++ [v2], m.hashes ++ [hash k]⟩ : Map K V) k =
        some i := hidx2
    have hg : i < (m.values ++ [v2]).length := by
      rw [List.length_append]
      omega
    have h1 : (m.hashes ++ [hash k]).get? i = some (hash k) := by
      have hiH : i < m.hashes.length := by
        rw [hw1, List.length_map]
        exact hiK
      rw [List.get?_append hiH, hw1, List.get?_map, hki]
      rfl
    have h2 : (m.keys ++ [k]).get? i = some k := by
      rw [List.get?_append hiK]
      exact hki
    have h3 : (swapRemoveD (m.keys ++ [k]) i).get? i = some k := by
      have hi2 : i < (m.keys ++ [k]).length := by
        rw [List.length_append]
        omega
      have hj2 : i < (m.keys ++ [k]).length - 1 := by
        rw [List.length_append]
        simpa using hiK
      rw [get?_swapRemoveD hi2 hj2, if_pos rfl]
      have : (m.keys ++ [k]).length - 1 = m.keys.length := by
        rw [List.length_append]
        rfl
      rw [this]
      exact List.get?_concat_length m.keys k
    have h4 : (m.values ++ [v2]).get? i = some v1 := by
      rw [List.get?_append hiV]
      exact hv1
    simp only [Map.remove_by_key, hIdxKey, Map.remove_by_index, Map.len,
      swapRemoveChk_eq_some h1, swapRemoveChk_eq_some h2,
      swapRemoveChk_eq_some h3, swapRemoveChk_eq_some h4]
    rw [if_pos hg]

/-- Witness for C10 on the one-entry map `{7 ↦ 10}` with the identity
hash: inserting the duplicate `(7, 20)` by `insert_unique_value` and
then probing key 7 exhibits the stated behaviour; the remove conjunct is
instantiated. -/
theorem c10_witness :
    ∃ m2, Map.remove_by_key (fun n => n)
        ((⟨[7], [10], [7]⟩ : Map Nat Nat).insert_unique_value (fun n => n) 7 20).2 7 =
      some (some ((7, 10), m2)) :=
  (c10_insert_unique_value_duplicates_key (fun n => n)
    (⟨[7], [10], [7]⟩ : Map Nat Nat) 7 10 20 0
    ⟨rfl, rfl⟩ (by decide) (by decide) (by decide)).2.2.2.2.2.2.2

/-! ## SlotMap helper lemmas -/

theorem length_setSlotIdx (slots : List Slot) (j x : Nat) :
    (setSlotIdx slots j x).length = slots.length := by
  unfold setSlotIdx
  cases h : slots.get? j with
  | some sl => rw [List.length_set]
  | none => rfl

theorem setSlotIdx_get?_ne (slots : List Slot) {j : Nat} (x : Nat) {j2 : Nat}
    (h : j2 ≠ j) : (setSlotIdx slots j x).get? j2 = slots.get? j2 := by
  unfold setSlotIdx
  cases hg : slots.get? j with
  | some sl =>
    rw [get?_set, if_neg (fun hc => h hc.1)]
  | none => rfl

theorem setSlotIdx_get?_eq {slots : List Slot} {j : Nat} (x : Nat) {sl : Slot}
    (h : slots.get? j = some sl) :
    (setSlotIdx slots j x).get? j = some ⟨x, sl.gen⟩ := by
  unfold setSlotIdx
  rw [h, get?_set, if_pos ⟨rfl, get?_some_lt h⟩]

theorem setSlotIdx_gen (slots : List Slot) (j x : Nat) (j2 : Nat) :
    ((setSlotIdx slots j x).get? j2).map Slot.gen = (slots.get? j2).map Slot.gen := by
  by_cases hj : j2 = j
  · subst hj
    cases hg : slots.get? j2 with
    | some sl =>
      have h2 : (setSlotIdx slots j2 x).get? j2 = some ⟨x, sl.gen⟩ :=
        setSlotIdx_get?_eq x hg
      rw [h2]
      rfl
    | none =>
      unfold setSlotIdx
      rw [hg]
      rw [hg]
  · rw [setSlotIdx_get?_ne slots x hj]

theorem length_bumpGen (slots : List Slot) (j : Nat) :
    (bumpGen slots j).length = slots.length := by
  unfold bumpGen
  cases h : slots.get? j with
  | some sl => rw [List.length_set]
  | none => rfl

theorem bumpGen_get?_ne (slots : List Slot) {j : Nat} {j2 : Nat}
    (h : j2 ≠ j) : (bumpGen slots j).get? j2 = slots.get? j2 := by
  unfold bumpGen
  cases hg : slots.get? j with
  | some sl =>
    rw [get?_set, if_neg (fun hc => h hc.1)]
  | none => rfl

theorem bumpGen_get?_eq {slots : List Slot} {j : Nat} {sl : Slot}
    (h : slots.get? j = some sl) :
    (bumpGen slots j).get? j = some ⟨sl.idx, sl.gen + 1⟩ := by
  unfold bumpGen
  rw [h, get?_set, if_pos ⟨rfl, get?_some_lt h⟩]

theorem elem_true_iff {α : Type} [DecidableEq α] {l : List α} {a : α} :
    l.contains a = true ↔ a ∈ l := List.elem_iff

theorem honestA_cons {V : Type} {s : SlotMap V} {op : ArenaOp V}
    {L : List (ArenaOp V)} :
    honestA s (op :: L) = true ↔
      ((match op with
        | .del k => !s.contains_key k || s.keys.contains k
        | .ins _ => true) = true ∧ honestA (applyAOp s op) L = true) := by
  cases op with
  | ins v => simp [honestA]
  | del k => simp [honestA]

theorem avoidsDel_cons {V : Type} {k : KeyData} {op : ArenaOp V}
    {L : List (ArenaOp V)} :
    avoidsDel k (op :: L) = true ↔
      ((match op with
        | .del k2 => k2 ≠ k
        | .ins _ => True) ∧ avoidsDel k L = true) := by
  cases op with
  | ins v => simp [avoidsDel]
  | del k2 => simp [avoidsDel]

/-- Pointwise relation on slot tables: every slot still exists and its
generation has not decreased. -/
def slotsMono (s1 s2 : List Slot) : Prop :=
  ∀ j sl, s1.get? j = some sl → ∃ sl2, s2.get? j = some sl2 ∧ sl.gen ≤ sl2.gen

theorem slotsMono_refl (s1 : List Slot) : slotsMono s1 s1 :=
  fun _ sl h => ⟨sl, h, Nat.le_refl _⟩

theorem slotsMono_trans {s1 s2 s3 : List Slot}
    (h12 : slotsMono s1 s2) (h23 : slotsMono s2 s3) : slotsMono s1 s3 := by
  intro j sl h
  obtain ⟨sl2, h2, hg2⟩ := h12 j sl h
  obtain ⟨sl3, h3, hg3⟩ := h23 j sl2 h2
  exact ⟨sl3, h3, Nat.le_trans hg2 hg3⟩

theorem slotsMono_of_gen_eq {s1 s2 : List Slot}
    (h : ∀ j, (s2.get? j).map Slot.gen = (s1.get? j).map Slot.gen) :
    slotsMono s1 s2 := by
  intro j sl hj
  have h2 := h j
  rw [hj] at h2
  cases hq : s2.get? j with
  | some sl2 =>
    rw [hq] at h2
    exact ⟨sl2, rfl, Nat.le_of_eq (Option.some.injEq _ _ ▸ h2).symm⟩
  | none =>
    rw [hq] at h2
    exact Option.noConfusion h2

theorem slotsMono_setSlotIdx (s1 : List Slot) (j x : Nat) :
    slotsMono s1 (setSlotIdx s1 j x) :=
  slotsMono_of_gen_eq (fun j2 => setSlotIdx_gen s1 j x j2)

theorem slotsMono_bumpGen (s1 : List Slot) (j : Nat) :
    slotsMono s1 (bumpGen s1 j) := by
  intro j2 sl hj
  by_cases hjj : j2 = j
  · subst hjj
    rw [bumpGen_get?_eq hj]
    exact ⟨⟨sl.idx, sl.gen + 1⟩, rfl, Nat.le_succ _⟩
  · rw [bumpGen_get?_ne s1 hjj]
    exact ⟨sl, hj, Nat.le_refl _⟩

theorem slotsMono_append (s1 l2 : List Slot) : slotsMono s1 (s1 ++ l2) := by
  intro j sl hj
  rw [List.get?_append (get?_some_lt hj)]
  exact ⟨sl, hj, Nat.le_refl _⟩

theorem slotsMono_set_keepgen (s1 : List Slot) (j x : Nat) (d : Slot) :
    slotsMono s1 (s1.set j ⟨x, ((s1.get? j).getD d).gen⟩) := by
  intro j2 sl hj
  rw [get?_set]
  by_cases hc : j2 = j ∧ j < s1.length
  · rw [if_pos hc]
    refine ⟨_, rfl, ?_⟩
    obtain ⟨hj2, _⟩ := hc
    subst hj2
    rw [hj]
    exact Nat.le_refl _
  · rw [if_neg hc]
    exact ⟨sl, hj, Nat.le_refl _⟩

/-! Equation lemmas unfolding the branchy `SlotMap` operations under an
explicit hypothesis about the scrutinised state. -/

theorem acquire_slot_none {V : Type} {s : SlotMap V} (hfl : s.freelist = none)
    (n : Nat) :
    s.acquire_slot n = (⟨s.slots.length, 0⟩,
      { s with slots := s.slots ++ [⟨n, 0⟩] }) := by
  simp only [SlotMap.acquire_slot, hfl]

theorem acquire_slot_some {V : Type} {s : SlotMap V} {fl : FreeList}
    (hfl : s.freelist = some fl) (n : Nat) :
    s.acquire_slot n =
      (⟨fl.head, ((s.slots.get? fl.head).getD ⟨0, 0⟩).gen⟩,
       { s with
          freelist := if fl.tail ≠ fl.head
            then some ⟨((s.slots.get? fl.head).getD ⟨0, 0⟩).idx, fl.tail⟩
            else none,
          slots := s.slots.set fl.head
            ⟨n, ((s.slots.get? fl.head).getD ⟨0, 0⟩).gen⟩ }) := by
  simp only [SlotMap.acquire_slot, hfl]

theorem free_slot_some {V : Type} {s : SlotMap V} {fl : FreeList}
    (hfl : s.freelist = some fl) (j : Nat) :
    s.free_slot j = { s with slots := setSlotIdx (bumpGen s.slots j) fl.tail j,
                             freelist := some ⟨fl.head, j⟩ } := by
  simp only [SlotMap.free_slot, hfl]

theorem free_slot_none {V : Type} {s : SlotMap V} (hfl : s.freelist = none)
    (j : Nat) :
    s.free_slot j = { s with slots := bumpGen s.slots j,
                             freelist := some ⟨j, j⟩ } := by
  simp only [SlotMap.free_slot, hfl]

theorem remove_succ {V : Type} {s : SlotMap V} {k : KeyData} {slot : Slot}
    (hq : s.slots.get? k.idx = some slot) (hg : slot.gen = k.gen) :
    s.remove k = (s.values.get? slot.idx, SlotMap.free_slot
      { keys := swapRemoveD s.keys slot.idx,
        values := swapRemoveD s.values slot.idx,
        slots := match (swapRemoveD s.keys slot.idx).get? slot.idx with
          | some k2 => setSlotIdx s.slots k2.idx slot.idx
          | none => s.slots,
        freelist := s.freelist } k.idx) := by
  simp only [SlotMap.remove, hq, hg, if_pos]

theorem slotsMono_free_slot {V : Type} (s : SlotMap V) (j : Nat) :
    slotsMono s.slots (s.free_slot j).slots := by
  cases hfl : s.freelist with
  | some fl =>
    rw [free_slot_some hfl]
    exact slotsMono_trans (slotsMono_bumpGen s.slots j)
      (slotsMono_setSlotIdx _ fl.tail j)
  | none =>
    rw [free_slot_none hfl]
    exact slotsMono_bumpGen s.slots j

theorem slotsMono_acquire {V : Type} (s : SlotMap V) (n : Nat) :
    slotsMono s.slots (s.acquire_slot n).2.slots := by
  cases hfl : s.freelist with
  | some fl =>
    rw [acquire_slot_some hfl]
    exact slotsMono_set_keepgen s.slots fl.head n ⟨0, 0⟩
  | none =>
    rw [acquire_slot_none hfl]
    exact slotsMono_append s.slots _

theorem slotsMono_applyAOp {V : Type} (s : SlotMap V) (op : ArenaOp V) :
    slotsMono s.slots (applyAOp s op).slots := by
  cases op with
  | ins v =>
    show slotsMono s.slots (s.insert v).2.slots
    unfold SlotMap.insert
    exact slotsMono_acquire s s.values.length
  | del k =>
    show slotsMono s.slots (s.remove k).2.slots
    cases hq : s.slots.get? k.idx with
    | none =>
      have hns : s.remove k = (none, s) := by
        simp only [SlotMap.remove, hq]
      rw [hns]
      exact slotsMono_refl _
    | some slot =>
      by_cases hg : slot.gen = k.gen
      · rw [remove_succ hq hg]
        refine slotsMono_trans ?_ (slotsMono_free_slot _ k.idx)
        show slotsMono s.slots
          (match (swapRemoveD s.keys slot.idx).get? slot.idx with
            | some k2 => setSlotIdx s.slots k2.idx slot.idx
            | none => s.slots)
        cases hk2 : (swapRemoveD s.keys slot.idx).get? slot.idx with
        | some k2 => exact slotsMono_setSlotIdx s.slots k2.idx slot.idx
        | none => exact slotsMono_refl _
      · have hns : s.remove k = (none, s) := by
          simp only [SlotMap.remove, hq, if_neg hg]
        rw [hns]
        exact slotsMono_refl _

theorem slotsMono_applyAOps {V : Type} (s : SlotMap V) (L : List (ArenaOp V)) :
    slotsMono s.slots (applyAOps s L).slots := by
  induction L generalizing s with
  | nil => exact slotsMono_refl _
  | cons op rest ih =>
    exact slotsMono_trans (slotsMono_applyAOp s op) (ih (applyAOp s op))

theorem remove_noop {V : Type} {s : SlotMap V} {k : KeyData}
    (h : s.contains_key k = false) : s.remove k = (none, s) := by
  cases hq : s.slots.get? k.idx with
  | none => simp only [SlotMap.remove, hq]
  | some slot =>
    have hg : ¬(slot.gen = k.gen) := by
      intro hc
      unfold SlotMap.contains_key at h
      rw [hq] at h
      simp [hc] at h
    simp only [SlotMap.remove, hq, if_neg hg]

theorem free_slot_gen_bump {V : Type} {s : SlotMap V} {j : Nat} {sl : Slot}
    (h : s.slots.get? j = some sl) :
    ∃ sl2, (s.free_slot j).slots.get? j = some sl2 ∧ sl2.gen = sl.gen + 1 := by
  cases hfl : s.freelist with
  | some fl =>
    rw [free_slot_some hfl]
    have hb : (bumpGen s.slots j).get? j = some ⟨sl.idx, sl.gen + 1⟩ :=
      bumpGen_get?_eq h
    have hmap := setSlotIdx_gen (bumpGen s.slots j) fl.tail j j
    rw [hb] at hmap
    cases hq2 : (setSlotIdx (bumpGen s.slots j) fl.tail j).get? j with
    | some sl2 =>
      rw [hq2] at hmap
      exact ⟨sl2, rfl, by simpa using hmap⟩
    | none =>
      rw [hq2] at hmap
      exact Option.noConfusion hmap
  | none =>
    rw [free_slot_none hfl]
    exact ⟨⟨sl.idx, sl.gen + 1⟩, bumpGen_get?_eq h, rfl⟩

theorem remove_success_gen {V : Type} {s : SlotMap V} {k : KeyData} {slot : Slot}
    (hq : s.slots.get? k.idx = some slot) (hg : slot.gen = k.gen) :
    ∃ sl2, (s.remove k).2.slots.get? k.idx = some sl2 ∧ sl2.gen = k.gen + 1 := by
  rw [remove_succ hq hg]
  have step1 : ∃ sl1,
      (match (swapRemoveD s.keys slot.idx).get? slot.idx with
        | some k2 => setSlotIdx s.slots k2.idx slot.idx
        | none => s.slots).get? k.idx = some sl1 ∧ sl1.gen = k.gen := by
    cases hk2 : (swapRemoveD s.keys slot.idx).get? slot.idx with
    | some k2 =>
      have hmap := setSlotIdx_gen s.slots k2.idx slot.idx k.idx
      rw [hq] at hmap
      cases hq2 : (setSlotIdx s.slots k2.idx slot.idx).get? k.idx with
      | some sl1 =>
        rw [hq2] at hmap
        refine ⟨sl1, rfl, ?_⟩
        have hgg : sl1.gen = slot.gen := by simpa using hmap
        rw [hgg, hg]
      | none =>
        rw [hq2] at hmap
        exact Option.noConfusion hmap
    | none => exact ⟨slot, hq, hg⟩
  obtain ⟨sl1, hsl1, hgen1⟩ := step1
  set S1 : SlotMap V :=
    { keys := swapRemoveD s.keys slot.idx,
      values := swapRemoveD s.values slot.idx,
      slots := match (swapRemoveD s.keys slot.idx).get? slot.idx with
        | some k2 => setSlotIdx s.slots k2.idx slot.idx
        | none => s.slots,
      freelist := s.freelist } with hS1
  have hsl1b : S1.slots.get? k.idx = some sl1 := hsl1
  obtain ⟨sl2, h2, hgen2⟩ := free_slot_gen_bump hsl1b
  refine ⟨sl2, h2, ?_⟩
  rw [hgen2, hgen1]

theorem get_none_of_stale {V : Type} {s : SlotMap V} {k : KeyData} {sl : Slot}
    (hq : s.slots.get? k.idx = some sl) (hlt : k.gen < sl.gen)
    (L : List (ArenaOp V)) : (applyAOps s L).get k = none := by
  obtain ⟨sl2, hq2, hg2⟩ := slotsMono_applyAOps s L k.idx sl hq
  have hne : ¬(sl2.gen = k.gen) := by omega
  simp only [SlotMap.get, hq2, if_neg hne]

theorem keydata_ext {k1 k2 : KeyData} (h1 : k1.idx = k2.idx)
    (h2 : k1.gen = k2.gen) : k1 = k2 := by
  cases k1
  cases k2
  simp_all

theorem inv_idx_inj {V : Type} {s : SlotMap V} {fl : List Nat}
    (hinv : ArenaInv s fl) {i1 i2 : Nat} {k1 k2 : KeyData}
    (h1 : s.keys.get? i1 = some k1) (h2 : s.keys.get? i2 = some k2)
    (heq : k1.idx = k2.idx) : i1 = i2 ∧ k1 = k2 := by
  obtain ⟨sl1, hs1, hi1, hg1⟩ := hinv.dense i1 k1 h1
  obtain ⟨sl2, hs2, hi2, hg2⟩ := hinv.dense i2 k2 h2
  rw [heq] at hs1
  rw [hs1] at hs2
  have hsl : sl1 = sl2 := Option.some.injEq _ _ ▸ hs2
  constructor
  · rw [← hi1, ← hi2, hsl]
  · refine keydata_ext heq ?_
    rw [← hg1, ← hg2, hsl]

theorem inv_get_eq {V : Type} {s : SlotMap V} {fl : List Nat}
    (hinv : ArenaInv s fl) {i : Nat} {k : KeyData}
    (h : s.keys.get? i = some k) :
    s.get k = s.values.get? i ∧ ∃ v0, s.values.get? i = some v0 := by
  obtain ⟨sl, hsl, hidx, hgen⟩ := hinv.dense i k h
  constructor
  · simp only [SlotMap.get, hsl, if_pos hgen, hidx]
  · refine get?_of_lt ?_
    rw [← hinv.len_kv]
    exact get?_some_lt h

theorem inv_contains_of_dense {V : Type} {s : SlotMap V} {fl : List Nat}
    (hinv : ArenaInv s fl) {i : Nat} {k : KeyData}
    (h : s.keys.get? i = some k) : s.contains_key k = true := by
  obtain ⟨sl, hsl, _, hgen⟩ := hinv.dense i k h
  simp only [SlotMap.contains_key, hsl]
  simp [hgen]

theorem insert_bundle {V : Type} {s s2 : SlotMap V} {k : KeyData} {v : V}
    {fl : List Nat} (hinv : ArenaInv s fl) (hins : s.insert v = (k, s2)) :
    ∃ fl2, ArenaInv s2 fl2 ∧ s2.keys = s.keys ++ [k] ∧
      s2.values = s.values ++ [v] ∧ s2.get k = some v ∧
      (∀ k0, k0 ∈ s.keys → s2.get k0 = s.get k0) := by
  cases hfl : s.freelist with
  | none =>
    have hfl0 : fl = [] := by
      have h := hinv.fl_repr
      simp only [hfl] at h
      exact h
    have hpair : s.insert v = (⟨s.slots.length, 0⟩,
        { keys := s.keys ++ [⟨s.slots.length, 0⟩],
          values := s.values ++ [v],
          slots := s.slots ++ [⟨s.values.length, 0⟩],
          freelist := none }) := by
      simp only [SlotMap.insert, acquire_slot_none hfl, hfl]
    rw [hpair] at hins
    injection hins with hk hs2
    subst hk
    subst hs2
    refine ⟨[], ⟨?_, ?_, List.nodup_nil, ?_, ?_, ?_, ?_, rfl, ?_⟩, rfl, rfl, ?_, ?_⟩
    · show (s.keys ++ [(⟨s.slots.length, 0⟩ : KeyData)]).length =
        (s.values ++ [v]).length
      simp [hinv.len_kv]
    · intro i k0 hk0
      by_cases hlt : i < s.keys.length
      · rw [List.get?_append hlt] at hk0
        obtain ⟨sl, hsl, hidx, hgen⟩ := hinv.dense i k0 hk0
        refine ⟨sl, ?_, hidx, hgen⟩
        rw [List.get?_append (get?_some_lt hsl)]
        exact hsl
      · have hlen : i < s.keys.length + 1 := by
          have := get?_some_lt hk0
          simpa using this
        have hieq : i = s.keys.length := by omega
        subst hieq
        rw [List.get?_concat_length] at hk0
        injection hk0 with hk0
        subst hk0
        refine ⟨⟨s.values.length, 0⟩, ?_, hinv.len_kv.symm, rfl⟩
        exact List.get?_concat_length s.slots ⟨s.values.length, 0⟩
    · intro j hj
      exact absurd hj (List.not_mem_nil j)
    · intro j hj
      exact absurd hj (List.not_mem_nil j)
    · intro j sl hj
      exact absurd hj (List.not_mem_nil j)
    · intro n j j2 hn
      simp at hn
    · intro j hj
      rw [List.length_append, List.length_singleton] at hj
      by_cases hlt : j < s.slots.length
      · rcases hinv.partition j hlt with ⟨i, k0, hk0, hkidx⟩ | hmem
        · refine Or.inl ⟨i, k0, ?_, hkidx⟩
          rw [List.get?_append (get?_some_lt hk0)]
          exact hk0
        · rw [hfl0] at hmem
          exact absurd hmem (List.not_mem_nil j)
      · have hje : j = s.slots.length := by omega
        subst hje
        exact Or.inl ⟨s.keys.length, ⟨s.slots.length, 0⟩,
          List.get?_concat_length _ _, rfl⟩
    · have h1 : (s.slots ++ [(⟨s.values.length, 0⟩ : Slot)]).get?
          (⟨s.slots.length, 0⟩ : KeyData).idx = some ⟨s.values.length, 0⟩ :=
        List.get?_concat_length _ _
      simp only [SlotMap.get, h1, if_pos rfl]
      exact List.get?_concat_length _ _
    · intro k0 hk0mem
      obtain ⟨i, hki⟩ := List.mem_iff_get?.mp hk0mem
      obtain ⟨sl, hsl, hidx, hgen⟩ := hinv.dense i k0 hki
      have h1 : (s.slots ++ [(⟨s.values.length, 0⟩ : Slot)]).get? k0.idx =
          some sl := by
        rw [List.get?_append (get?_some_lt hsl)]
        exact hsl
      have h2 : (s.values ++ [v]).get? sl.idx = s.values.get? sl.idx := by
        apply List.get?_append
        rw [hidx, ← hinv.len_kv]
        exact get?_some_lt hki
      simp only [SlotMap.get, h1, hsl, if_pos hgen]
      exact h2
  | some flh =>
    have hrepr : fl.head? = some flh.head ∧ fl.getLast? = some flh.tail := by
      have h := hinv.fl_repr
      simp only [hfl] at h
      exact h
    have hflcons : fl = flh.head :: fl.tail := List.eq_cons_of_mem_head? hrepr.1
    have hmemh : flh.head ∈ fl := by
      rw [hflcons]
      exact List.mem_cons_self _ _
    have hh0lt : flh.head < s.slots.length := hinv.fl_lt _ hmemh
    obtain ⟨sl0, hsl0⟩ := get?_of_lt hh0lt
    have hacq := acquire_slot_some hfl s.values.length
    rw [hsl0] at hacq
    simp only [Option.getD_some] at hacq
    have hdd : ∀ i k0, s.keys.get? i = some k0 → k0.idx ≠ flh.head :=
      fun i k0 h => hinv.fl_dead flh.head hmemh i k0 h
    have hgen0 : 1 ≤ sl0.gen := hinv.fl_gen flh.head sl0 hmemh hsl0
    by_cases htail : fl.tail = []
    · -- the single free slot is consumed; the free list empties
      have hfl1 : fl = [flh.head] := by
        rw [hflcons, htail]
      have htl : flh.tail = flh.head := by
        have h2 := hrepr.2
        rw [hfl1] at h2
        simpa using h2.symm
      rw [if_neg (show ¬(flh.tail ≠ flh.head) from fun hc => hc htl)] at hacq
      have hpair : s.insert v = (⟨flh.head, sl0.gen⟩,
          { keys := s.keys ++ [⟨flh.head, sl0.gen⟩],
            values := s.values ++ [v],
            slots := s.slots.set flh.head ⟨s.values.length, sl0.gen⟩,
            freelist := none }) := by
        simp only [SlotMap.insert, hacq]
      rw [hpair] at hins
      injection hins with hk hs2
      subst hk
      subst hs2
      refine ⟨[], ⟨?_, ?_, List.nodup_nil, ?_, ?_, ?_, ?_, rfl, ?_⟩, rfl, rfl, ?_, ?_⟩
      · show (s.keys ++ [(⟨flh.head, sl0.gen⟩ : KeyData)]).length =
          (s.values ++ [v]).length
        simp [hinv.len_kv]
      · intro i k0 hk0
        by_cases hlt : i < s.keys.length
        · rw [List.get?_append hlt] at hk0
          obtain ⟨sl, hsl, hidx, hgen⟩ := hinv.dense i k0 hk0
          refine ⟨sl, ?_, hidx, hgen⟩
          rw [get?_set, if_neg (fun hc => hdd i k0 hk0 hc.1)]
          exact hsl
        · have hlen : i < s.keys.length + 1 := by
            have := get?_some_lt hk0
            simpa using this
          have hieq : i = s.keys.length := by omega
          subst hieq
          rw [List.get?_concat_length] at hk0
          injection hk0 with hk0
          subst hk0
          refine ⟨⟨s.values.length, sl0.gen⟩, ?_, hinv.len_kv.symm, rfl⟩
          show (s.slots.set flh.head ⟨s.values.length, sl0.gen⟩).get? flh.head = _
          rw [get?_set, if_pos ⟨rfl, hh0lt⟩]
      · intro j hj
        exact absurd hj (List.not_mem_nil j)
      · intro j hj
        exact absurd hj (List.not_mem_nil j)
      · intro j sl hj
        exact absurd hj (List.not_mem_nil j)
      · intro n j j2 hn
        simp at hn
      · intro j hj
        rw [List.length_set] at hj
        rcases hinv.partition j hj with ⟨i, k0, hk0, hkidx⟩ | hmem
        · refine Or.inl ⟨i, k0, ?_, hkidx⟩
          rw [List.get?_append (get?_some_lt hk0)]
          exact hk0
        · rw [hfl1] at hmem
          have hje : j = flh.head := by simpa using hmem
          subst hje
          exact Or.inl ⟨s.keys.length, ⟨flh.head, sl0.gen⟩,
            List.get?_concat_length _ _, rfl⟩
      · have h1 : (s.slots.set flh.head ⟨s.values.length, sl0.gen⟩).get?
            (⟨flh.head, sl0.gen⟩ : KeyData).idx = some ⟨s.values.length, sl0.gen⟩ := by
          show (s.slots.set flh.head _).get? flh.head = _
          rw [get?_set, if_pos ⟨rfl, hh0lt⟩]
        simp only [SlotMap.get, h1, if_pos rfl]
        exact List.get?_concat_length _ _
      · intro k0 hk0mem
        obtain ⟨i, hki⟩ := List.mem_iff_get?.mp hk0mem
        obtain ⟨sl, hsl, hidx, hgen⟩ := hinv.dense i k0 hki
        have h1 : (s.slots.set flh.head ⟨s.values.length, sl0.gen⟩).get? k0.idx =
            some sl := by
          rw [get?_set, if_neg (fun hc => hdd i k0 hki hc.1)]
          exact hsl
        have h2 : (s.values ++ [v]).get? sl.idx = s.values.get? sl.idx := by
          apply List.get?_append
          rw [hidx, ← hinv.len_kv]
          exact get?_some_lt hki
        simp only [SlotMap.get, h1, hsl, if_pos hgen]
        exact h2
    · -- the free list still has entries after the head is consumed
      have hnodups := hinv.fl_nodup
      rw [hflcons] at hnodups
      have hh0notin : flh.head ∉ fl.tail := (List.nodup_cons.mp hnodups).1
      have htnodup : fl.tail.Nodup := (List.nodup_cons.mp hnodups).2
      obtain ⟨r0, hr0⟩ : ∃ r0, fl.tail.head? = some r0 := by
        cases hq : fl.tail with
        | nil => exact absurd hq htail
        | cons a t => exact ⟨a, rfl⟩
      have htlast : fl.tail.getLast? = some flh.tail := by
        have h2 := hrepr.2
        rw [hflcons] at h2
        cases hq : fl.tail with
        | nil => exact absurd hq htail
        | cons a t =>
          rw [hq] at h2
          exact h2
      have htailmem : flh.tail ∈ fl.tail := List.mem_of_mem_getLast? htlast
      have hneq : flh.tail ≠ flh.head := by
        intro hc
        rw [hc] at htailmem
        exact hh0notin htailmem
      rw [if_pos hneq] at hacq
      have hlink0 : sl0.idx = r0 := by
        have hget1 : fl.get? 0 = some flh.head := by
          rw [hflcons]
          rfl
        have hget2 : fl.get? 1 = some r0 := by
          rw [hflcons]
          show fl.tail.get? 0 = some r0
          cases hq : fl.tail with
          | nil => exact absurd hq htail
          | cons a t =>
            rw [hq] at hr0
            have har : a = r0 := by simpa using hr0
            rw [har]
            rfl
        obtain ⟨sl, hsl, hidx⟩ := hinv.fl_links 0 flh.head r0 hget1 hget2
        rw [hsl0] at hsl
        injection hsl with hsl
        rw [← hsl] at hidx
        exact hidx
      have hpair : s.insert v = (⟨flh.head, sl0.gen⟩,
          { keys := s.keys ++ [⟨flh.head, sl0.gen⟩],
            values := s.values ++ [v],
            slots := s.slots.set flh.head ⟨s.values.length, sl0.gen⟩,
            freelist := some ⟨sl0.idx, flh.tail⟩ }) := by
        simp only [SlotMap.insert, hacq]
      rw [hpair] at hins
      injection hins with hk hs2
      subst hk
      subst hs2
      refine ⟨fl.tail, ⟨?_, ?_, htnodup, ?_, ?_, ?_, ?_, ?_, ?_⟩, rfl, rfl, ?_, ?_⟩
      · show (s.keys ++ [(⟨flh.head, sl0.gen⟩ : KeyData)]).length =
          (s.values ++ [v]).length
        simp [hinv.len_kv]
      · intro i k0 hk0
        by_cases hlt : i < s.keys.length
        · rw [List.get?_append hlt] at hk0
          obtain ⟨sl, hsl, hidx, hgen⟩ := hinv.dense i k0 hk0
          refine ⟨sl, ?_, hidx, hgen⟩
          rw [get?_set, if_neg (fun hc => hdd i k0 hk0 hc.1)]
          exact hsl
        · have hlen : i < s.keys.length + 1 := by
            have := get?_some_lt hk0
            simpa using this
          have hieq : i = s.keys.length := by omega
          subst hieq
          rw [List.get?_concat_length] at hk0
          injection hk0 with hk0
          subst hk0
          refine ⟨⟨s.values.length, sl0.gen⟩, ?_, hinv.len_kv.symm, rfl⟩
          show (s.slots.set flh.head _).get? flh.head = _
          rw [get?_set, if_pos ⟨rfl, hh0lt⟩]
      · intro j hj
        rw [List.length_set]
        exact hinv.fl_lt j (by rw [hflcons]; exact List.mem_cons_of_mem _ hj)
      · intro j hj i k0 hk0
        by_cases hlt : i < s.keys.length
        · rw [List.get?_append hlt] at hk0
          exact hinv.fl_dead j (by rw [hflcons]; exact List.mem_cons_of_mem _ hj)
            i k0 hk0
        · have hlen : i < s.keys.length + 1 := by
            have := get?_some_lt hk0
            simpa using this
          have hieq : i = s.keys.length := by omega
          subst hieq
          rw [List.get?_concat_length] at hk0
          injection hk0 with hk0
          subst hk0
          show (⟨flh.head, sl0.gen⟩ : KeyData).idx ≠ j
          intro hc
          rw [← hc] at hj
          exact hh0notin hj
      · intro j sl hj hsl
        have hjne : j ≠ flh.head := fun hc => hh0notin (hc ▸ hj)
        rw [get?_set, if_neg (fun hc => hjne hc.1)] at hsl
        exact hinv.fl_gen j sl (by rw [hflcons]; exact List.mem_cons_of_mem _ hj) hsl
      · intro n j j2 hn hn2
        have hjmem : j ∈ fl.tail := List.get?_mem hn
        have hjne : j ≠ flh.head := fun hc => hh0notin (hc ▸ hjmem)
        have hfn : fl.get? (n + 1) = some j := by
          rw [hflcons]
          exact hn
        have hfn2 : fl.get? (n + 2) = some j2 := by
          rw [hflcons]
          exact hn2
        obtain ⟨sl, hsl, hidx⟩ := hinv.fl_links (n + 1) j j2 hfn hfn2
        refine ⟨sl, ?_, hidx⟩
        rw [get?_set, if_neg (fun hc => hjne hc.1)]
        exact hsl
      · exact ⟨hlink0 ▸ hr0, htlast⟩
      · intro j hj
        rw [List.length_set] at hj
        rcases hinv.partition j hj with ⟨i, k0, hk0, hkidx⟩ | hmem
        · refine Or.inl ⟨i, k0, ?_, hkidx⟩
          rw [List.get?_append (get?_some_lt hk0)]
          exact hk0
        · rw [hflcons] at hmem
          rcases List.mem_cons.mp hmem with hje | hjt
          · subst hje
            exact Or.inl ⟨s.keys.length, ⟨flh.head, sl0.gen⟩,
              List.get?_concat_length _ _, rfl⟩
          · exact Or.inr hjt
      · have h1 : (s.slots.set flh.head ⟨s.values.length, sl0.gen⟩).get?
            (⟨flh.head, sl0.gen⟩ : KeyData).idx = some ⟨s.values.length, sl0.gen⟩ := by
          show (s.slots.set flh.head _).get? flh.head = _
          rw [get?_set, if_pos ⟨rfl, hh0lt⟩]
        simp only [SlotMap.get, h1, if_pos rfl]
        exact List.get?_concat_length _ _
      · intro k0 hk0mem
        obtain ⟨i, hki⟩ := List.mem_iff_get?.mp hk0mem
        obtain ⟨sl, hsl, hidx, hgen⟩ := hinv.dense i k0 hki
        have h1 : (s.slots.set flh.head ⟨s.values.length, sl0.gen⟩).get? k0.idx =
            some sl := by
          rw [get?_set, if_neg (fun hc => hdd i k0 hki hc.1)]
          exact hsl
        have h2 : (s.values ++ [v]).get? sl.idx = s.values.get? sl.idx := by
          apply List.get?_append
          rw [hidx, ← hinv.len_kv]
          exact get?_some_lt hki
        simp only [SlotMap.get, h1, hsl, if_pos hgen]
        exact h2

theorem nodup_concat {α : Type} {l : List α} {x : α}
    (h : l.Nodup) (hx : x ∉ l) : (l ++ [x]).Nodup := by
  simp [List.nodup_append, h]
  intro hc
  exact hx hc

theorem free_slot_keys {V : Type} (s1 : SlotMap V) (f : Nat) :
    (s1.free_slot f).keys = s1.keys := by
  cases hfl : s1.freelist with
  | none => rw [free_slot_none hfl]
  | some fr => rw [free_slot_some hfl]

theorem free_slot_values {V : Type} (s1 : SlotMap V) (f : Nat) :
    (s1.free_slot f).values = s1.values := by
  cases hfl : s1.freelist with
  | none => rw [free_slot_none hfl]
  | some fr => rw [free_slot_some hfl]

theorem free_slot_slots_length {V : Type} (s1 : SlotMap V) (f : Nat) :
    (s1.free_slot f).slots.length = s1.slots.length := by
  cases hfl : s1.freelist with
  | none =>
    rw [free_slot_none hfl]
    exact length_bumpGen _ _
  | some fr =>
    rw [free_slot_some hfl]
    rw [length_setSlotIdx, length_bumpGen]

theorem free_slot_slots_other {V : Type} {s1 : SlotMap V} {f j : Nat}
    (hj : j ≠ f)
    (htl : ∀ fr, s1.freelist = some fr → j ≠ fr.tail) :
    (s1.free_slot f).slots.get? j = s1.slots.get? j := by
  cases hfl : s1.freelist with
  | none =>
    rw [free_slot_none hfl]
    exact bumpGen_get?_ne _ hj
  | some fr =>
    rw [free_slot_some hfl]
    rw [setSlotIdx_get?_ne _ _ (htl fr hfl), bumpGen_get?_ne _ hj]

theorem free_slot_bundle {V : Type} {s1 : SlotMap V} {fl : List Nat} {f : Nat}
    (hlen : s1.keys.length = s1.values.length)
    (hdense : ∀ i k, s1.keys.get? i = some k →
      ∃ sl, s1.slots.get? k.idx = some sl ∧ sl.idx = i ∧ sl.gen = k.gen)
    (hnodup : fl.Nodup)
    (hlt : ∀ j, j ∈ fl → j < s1.slots.length)
    (hdead : ∀ j, j ∈ fl → ∀ i k, s1.keys.get? i = some k → k.idx ≠ j)
    (hgen : ∀ j sl, j ∈ fl → s1.slots.get? j = some sl → 1 ≤ sl.gen)
    (hlinks : ∀ n j j2, fl.get? n = some j → fl.get? (n + 1) = some j2 →
      ∃ sl, s1.slots.get? j = some sl ∧ sl.idx = j2)
    (hrepr : match s1.freelist with
      | none => fl = []
      | some fr => fl.head? = some fr.head ∧ fl.getLast? = some fr.tail)
    (hpart : ∀ j, j < s1.slots.length →
      (∃ i k, s1.keys.get? i = some k ∧ k.idx = j) ∨ j ∈ fl ∨ j = f)
    (hflt : f < s1.slots.length)
    (hfnotin : f ∉ fl)
    (hfdead : ∀ i k, s1.keys.get? i = some k → k.idx ≠ f) :
    ArenaInv (s1.free_slot f) (fl ++ [f]) := by
  obtain ⟨slF, hslF⟩ := get?_of_lt hflt
  cases hfl : s1.freelist with
  | none =>
    have hfl0 : fl = [] := by
      simp only [hfl] at hrepr
      exact hrepr
    subst hfl0
    rw [free_slot_none hfl]
    refine ⟨hlen, ?_, List.nodup_singleton f, ?_, ?_, ?_, ?_, ⟨rfl, rfl⟩, ?_⟩
    · intro i k hk
      obtain ⟨sl, hsl, hidx, hg⟩ := hdense i k hk
      refine ⟨sl, ?_, hidx, hg⟩
      rw [bumpGen_get?_ne _ (hfdead i k hk)]
      exact hsl
    · intro j hj
      have hje : j = f := by simpa using hj
      subst hje
      rw [length_bumpGen]
      exact hflt
    · intro j hj i k hk
      have hje : j = f := by simpa using hj
      subst hje
      exact hfdead i k hk
    · intro j sl hj hsl
      have hje : j = f := by simpa using hj
      subst hje
      rw [bumpGen_get?_eq hslF] at hsl
      injection hsl with hsl
      rw [← hsl]
      exact Nat.le_add_left 1 slF.gen
    · intro n j j2 hn hn2
      have h1 : n = 0 := by
        have := get?_some_lt hn
        simpa using this
      subst h1
      simp at hn2
    · intro j hj
      rw [length_bumpGen] at hj
      rcases hpart j hj with hlive | hmem | hje
      · exact Or.inl hlive
      · exact absurd hmem (List.not_mem_nil j)
      · subst hje
        exact Or.inr (List.mem_singleton.mpr rfl)
  | some fr =>
    have hrepr2 : fl.head? = some fr.head ∧ fl.getLast? = some fr.tail := by
      simp only [hfl] at hrepr
      exact hrepr
    have htailmem : fr.tail ∈ fl := List.mem_of_mem_getLast? hrepr2.2
    have htne : fr.tail ≠ f := fun hc => hfnotin (hc ▸ htailmem)
    have hflne : fl ≠ [] := by
      intro hc
      rw [hc] at htailmem
      exact List.not_mem_nil _ htailmem
    have hfllen : 0 < fl.length := List.length_pos.mpr hflne
    obtain ⟨slT, hslT⟩ := get?_of_lt (hlt fr.tail htailmem)
    have htealast : fl.get? (fl.length - 1) = some fr.tail := by
      obtain ⟨a, ha1, ha2⟩ := getLast?_last hfllen
      rw [hrepr2.2] at ha1
      injection ha1 with ha1
      rw [ha1]
      exact ha2
    rw [free_slot_some hfl]
    have hS_f : (setSlotIdx (bumpGen s1.slots f) fr.tail f).get? f =
        some ⟨slF.idx, slF.gen + 1⟩ := by
      rw [setSlotIdx_get?_ne _ _ (fun hc => htne hc.symm)]
      exact bumpGen_get?_eq hslF
    have hS_tail : (setSlotIdx (bumpGen s1.slots f) fr.tail f).get? fr.tail =
        some ⟨f, slT.gen⟩ := by
      have hb : (bumpGen s1.slots f).get? fr.tail = some slT := by
        rw [bumpGen_get?_ne _ htne]
        exact hslT
      exact setSlotIdx_get?_eq f hb
    have hS_other : ∀ j, j ≠ f → j ≠ fr.tail →
        (setSlotIdx (bumpGen s1.slots f) fr.tail f).get? j = s1.slots.get? j := by
      intro j hj1 hj2
      rw [setSlotIdx_get?_ne _ _ hj2, bumpGen_get?_ne _ hj1]
    have hS_len : (setSlotIdx (bumpGen s1.slots f) fr.tail f).length =
        s1.slots.length := by
      rw [length_setSlotIdx, length_bumpGen]
    refine ⟨hlen, ?_, nodup_concat hnodup hfnotin, ?_, ?_, ?_, ?_, ?_, ?_⟩
    · intro i k hk
      obtain ⟨sl, hsl, hidx, hg⟩ := hdense i k hk
      refine ⟨sl, ?_, hidx, hg⟩
      rw [hS_other k.idx (hfdead i k hk) (hdead fr.tail htailmem i k hk)]
      exact hsl
    · intro j hj
      rw [hS_len]
      rcases List.mem_append.mp hj with hjf | hjx
      · exact hlt j hjf
      · have : j = f := by simpa using hjx
        subst this
        exact hflt
    · intro j hj i k hk
      rcases List.mem_append.mp hj with hjf | hjx
      · exact hdead j hjf i k hk
      · have : j = f := by simpa using hjx
        subst this
        exact hfdead i k hk
    · intro j sl hj hsl
      rcases List.mem_append.mp hj with hjf | hjx
      · by_cases hjt : j = fr.tail
        · subst hjt
          rw [hS_tail] at hsl
          injection hsl with hsl
          rw [← hsl]
          exact hgen _ slT htailmem hslT
        · rw [hS_other j (fun hc => hfnotin (hc ▸ hjf)) hjt] at hsl
          exact hgen j sl hjf hsl
      · have : j = f := by simpa using hjx
        subst this
        rw [hS_f] at hsl
        injection hsl with hsl
        rw [← hsl]
        exact Nat.le_add_left 1 slF.gen
    · intro n j j2 hn hn2
      have hnlt : n < fl.length + 1 := by
        have := get?_some_lt hn
        simpa using this
      by_cases hcase : n + 1 < fl.length
      · have hjn : fl.get? n = some j := by
          rw [List.get?_append (by omega)] at hn
          exact hn
        have hjn2 : fl.get? (n + 1) = some j2 := by
          rw [List.get?_append hcase] at hn2
          exact hn2
        obtain ⟨sl, hsl, hidx⟩ := hlinks n j j2 hjn hjn2
        have hjmem : j ∈ fl := List.get?_mem hjn
        have hjnf : j ≠ f := fun hc => hfnotin (hc ▸ hjmem)
        have hjnt : j ≠ fr.tail := by
          intro hc
          have he : fl.get? n = fl.get? (fl.length - 1) := by
            rw [hjn, hc, htealast]
          have hni := List.get?_inj (show n < fl.length by omega) hnodup he
          omega
        refine ⟨sl, ?_, hidx⟩
        rw [hS_other j hjnf hjnt]
        exact hsl
      · by_cases hcase2 : n + 1 = fl.length
        · have hjn : fl.get? n = some j := by
            rw [List.get?_append (by omega)] at hn
            exact hn
          have hjt : j = fr.tail := by
            have : fl.get? (fl.length - 1) = some j := by
              rw [show fl.length - 1 = n by omega]
              exact hjn
            rw [htealast] at this
            injection this with h
            exact h.symm
          have hj2f : j2 = f := by
            rw [show n + 1 = fl.length from hcase2] at hn2
            rw [List.get?_concat_length] at hn2
            injection hn2 with h
            exact h.symm
          refine ⟨⟨f, slT.gen⟩, ?_, ?_⟩
          · rw [hjt]
            exact hS_tail
          · exact hj2f.symm
        · have : (fl ++ [f]).get? (n + 1) = none := by
            apply List.get?_len_le
            rw [List.length_append, List.length_singleton]
            omega
          rw [this] at hn2
          exact Option.noConfusion hn2
    · constructor
      · rw [List.head?_append_of_ne_nil _ hflne]
        exact hrepr2.1
      · exact List.getLast?_concat fl
    · intro j hj
      rw [hS_len] at hj
      rcases hpart j hj with hlive | hmem | hje
      · exact Or.inl hlive
      · exact Or.inr (List.mem_append.mpr (Or.inl hmem))
      · subst hje
        exact Or.inr (List.mem_append.mpr (Or.inr (List.mem_singleton.mpr rfl)))

theorem remove_bundle {V : Type} {s : SlotMap V} {fl : List Nat}
    (hinv : ArenaInv s fl) {i0 : Nat} {k0 : KeyData}
    (hk0 : s.keys.get? i0 = some k0) :
    ∃ fl2, ArenaInv (s.remove k0).2 fl2 ∧
      (s.remove k0).1 = s.values.get? i0 ∧
      (∃ v0, s.values.get? i0 = some v0) ∧
      (s.remove k0).2.keys.length = s.keys.length - 1 ∧
      (s.remove k0).2.values.length = s.values.length - 1 ∧
      List.Perm (s.remove k0).2.keys (s.keys.erase k0) ∧
      (∀ k, k ∈ s.keys → k ≠ k0 → k ∈ (s.remove k0).2.keys ∧
        (s.remove k0).2.get k = s.get k) := by
  obtain ⟨sl0, hsl0, hidx0, hgsl0⟩ := hinv.dense i0 k0 hk0
  have hn := hinv.len_kv
  have hi0 : i0 < s.keys.length := get?_some_lt hk0
  have hi0v : i0 < s.values.length := by omega
  obtain ⟨v0, hv0⟩ := get?_of_lt hi0v
  have hrs := remove_succ hsl0 hgsl0
  rw [hidx0] at hrs
  have hk0notin : k0.idx ∉ fl := fun hc => hinv.fl_dead k0.idx hc i0 k0 hk0 rfl
  have hk0lt : k0.idx < s.slots.length := get?_some_lt hsl0
  have htailfact : ∀ fr, s.freelist = some fr → fr.tail ∈ fl := by
    intro fr hfr
    have hr := hinv.fl_repr
    simp only [hfr] at hr
    exact List.mem_of_mem_getLast? hr.2
  by_cases hlastc : i0 + 1 = s.keys.length
  · -- the removed entry is the last dense entry: no displacement
    have hnone : (swapRemoveD s.keys i0).get? i0 = none := by
      apply List.get?_len_le
      rw [length_swapRemoveD hi0]
      omega
    simp only [hnone] at hrs
    have hkeys1 : ∀ m, m < s.keys.length - 1 →
        (swapRemoveD s.keys i0).get? m = s.keys.get? m := by
      intro m hm
      rw [get?_swapRemoveD hi0 hm, if_neg (by omega)]
    have hdense1 : ∀ i k, (swapRemoveD s.keys i0).get? i = some k →
        ∃ sl, s.slots.get? k.idx = some sl ∧ sl.idx = i ∧ sl.gen = k.gen := by
      intro i k hk
      have hilt : i < s.keys.length - 1 := by
        have := get?_some_lt hk
        rwa [length_swapRemoveD hi0] at this
      rw [hkeys1 i hilt] at hk
      exact hinv.dense i k hk
    have hdead1 : ∀ i k, (swapRemoveD s.keys i0).get? i = some k →
        k.idx ≠ k0.idx := by
      intro i k hk hc
      have hilt : i < s.keys.length - 1 := by
        have := get?_some_lt hk
        rwa [length_swapRemoveD hi0] at this
      rw [hkeys1 i hilt] at hk
      obtain ⟨heq, _⟩ := inv_idx_inj hinv hk hk0 hc
      omega
    have hbundle : ArenaInv
        (SlotMap.free_slot
          { keys := swapRemoveD s.keys i0, values := swapRemoveD s.values i0,
            slots := s.slots, freelist := s.freelist } k0.idx)
        (fl ++ [k0.idx]) := by
      apply free_slot_bundle
      · show (swapRemoveD s.keys i0).length = (swapRemoveD s.values i0).length
        rw [length_swapRemoveD hi0, length_swapRemoveD hi0v, hn]
      · exact hdense1
      · exact hinv.fl_nodup
      · exact hinv.fl_lt
      · intro j hj i k hk
        have hilt : i < s.keys.length - 1 := by
          have := get?_some_lt hk
          rwa [length_swapRemoveD hi0] at this
        rw [hkeys1 i hilt] at hk
        exact hinv.fl_dead j hj i k hk
      · exact hinv.fl_gen
      · exact hinv.fl_links
      · exact hinv.fl_repr
      · intro j hj
        rcases hinv.partition j hj with ⟨i, k, hk, hkidx⟩ | hmem
        · by_cases hii : i = i0
          · subst hii
            rw [hk0] at hk
            injection hk with hk
            subst hk
            exact Or.inr (Or.inr hkidx.symm)
          · have hilt : i < s.keys.length - 1 := by
              have := get?_some_lt hk
              omega
            refine Or.inl ⟨i, k, ?_, hkidx⟩
            rw [hkeys1 i hilt]
            exact hk
        · exact Or.inr (Or.inl hmem)
      · exact hk0lt
      · exact hk0notin
      · exact hdead1
    refine ⟨fl ++ [k0.idx], ?_, ?_, ⟨v0, hv0⟩, ?_, ?_, ?_, ?_⟩
    · rw [hrs]
      exact hbundle
    · rw [hrs]
    · rw [hrs]
      show (SlotMap.free_slot _ k0.idx).keys.length = _
      rw [free_slot_keys]
      exact length_swapRemoveD hi0
    · rw [hrs]
      show (SlotMap.free_slot _ k0.idx).values.length = _
      rw [free_slot_values]
      exact length_swapRemoveD hi0v
    · rw [hrs]
      show List.Perm (SlotMap.free_slot _ k0.idx).keys _
      rw [free_slot_keys]
      exact swapRemoveD_perm_erase hk0
    · intro k hkmem hkne
      obtain ⟨m, hkm⟩ := List.mem_iff_get?.mp hkmem
      have hm : m < s.keys.length := get?_some_lt hkm
      have hmne : m ≠ i0 := by
        intro hc
        rw [hc, hk0] at hkm
        injection hkm with hkm
        exact hkne hkm.symm
      have hmlt : m < s.keys.length - 1 := by omega
      have hk1 : (swapRemoveD s.keys i0).get? m = some k := by
        rw [hkeys1 m hmlt]
        exact hkm
      obtain ⟨sl, hsl, hidx, hgen⟩ := hinv.dense m k hkm
      have hknot0 : k.idx ≠ k0.idx := by
        intro hc
        obtain ⟨heq, _⟩ := inv_idx_inj hinv hkm hk0 hc
        exact hmne heq
      constructor
      · rw [hrs]
        show k ∈ (SlotMap.free_slot _ k0.idx).keys
        rw [free_slot_keys]
        exact List.get?_mem hk1
      · rw [hrs]
        show (SlotMap.free_slot _ k0.idx).get k = s.get k
        have hknotfl : ∀ fr,
            ({ keys := swapRemoveD s.keys i0, values := swapRemoveD s.values i0,
               slots := s.slots, freelist := s.freelist } : SlotMap V).freelist =
              some fr → k.idx ≠ fr.tail := by
          intro fr hfr hc
          exact hinv.fl_dead fr.tail (htailfact fr hfr) m k hkm hc
        have hslots := @free_slot_slots_other V
          { keys := swapRemoveD s.keys i0, values := swapRemoveD s.values i0,
            slots := s.slots, freelist := s.freelist } _ _ hknot0 hknotfl
        have hval : (swapRemoveD s.values i0).get? sl.idx =
            s.values.get? sl.idx := by
          rw [get?_swapRemoveD hi0v (by omega), if_neg (by omega)]
        simp only [SlotMap.get, hslots, free_slot_values, hsl, if_pos hgen]
        exact hval
  · -- the removed entry is displaced by the last dense entry
    have hmid : i0 + 1 < s.keys.length := by omega
    have hn1lt : s.keys.length - 1 < s.keys.length := by omega
    obtain ⟨klast, hklast⟩ := get?_of_lt hn1lt
    have hsome : (swapRemoveD s.keys i0).get? i0 = some klast := by
      rw [get?_swapRemoveD hi0 (by omega), if_pos rfl]
      exact hklast
    simp only [hsome] at hrs
    obtain ⟨slK, hslK, hidxK, hgK⟩ := hinv.dense _ klast hklast
    have hKne0 : klast.idx ≠ k0.idx := by
      intro hc
      obtain ⟨heq, _⟩ := inv_idx_inj hinv hklast hk0 hc
      omega
    have hA_K : (setSlotIdx s.slots klast.idx i0).get? klast.idx =
        some ⟨i0, klast.gen⟩ := by
      have := setSlotIdx_get?_eq i0 hslK
      rw [hgK] at this
      exact this
    have hA_other : ∀ j, j ≠ klast.idx →
        (setSlotIdx s.slots klast.idx i0).get? j = s.slots.get? j := by
      intro j hj
      exact setSlotIdx_get?_ne _ _ hj
    have hkeys1 : ∀ m, m < s.keys.length - 1 → m ≠ i0 →
        (swapRemoveD s.keys i0).get? m = s.keys.get? m := by
      intro m hm hne
      rw [get?_swapRemoveD hi0 hm, if_neg hne]
    have hKdiff : ∀ i k, s.keys.get? i = some k → i ≠ s.keys.length - 1 →
        k.idx ≠ klast.idx := by
      intro i k hk hine hc
      obtain ⟨heq, _⟩ := inv_idx_inj hinv hk hklast hc
      exact hine heq
    have hdense1 : ∀ i k, (swapRemoveD s.keys i0).get? i = some k →
        ∃ sl, (setSlotIdx s.slots klast.idx i0).get? k.idx = some sl ∧
          sl.idx = i ∧ sl.gen = k.gen := by
      intro i k hk
      have hilt : i < s.keys.length - 1 := by
        have := get?_some_lt hk
        rwa [length_swapRemoveD hi0] at this
      by_cases hii : i = i0
      · subst hii
        rw [hsome] at hk
        injection hk with hk
        subst hk
        exact ⟨⟨i, klast.gen⟩, hA_K, rfl, rfl⟩
      · rw [hkeys1 i hilt hii] at hk
        obtain ⟨sl, hsl, hidx, hgen⟩ := hinv.dense i k hk
        refine ⟨sl, ?_, hidx, hgen⟩
        rw [hA_other k.idx (hKdiff i k hk (by omega))]
        exact hsl
    have hdead1 : ∀ i k, (swapRemoveD s.keys i0).get? i = some k →
        k.idx ≠ k0.idx := by
      intro i k hk hc
      have hilt : i < s.keys.length - 1 := by
        have := get?_some_lt hk
        rwa [length_swapRemoveD hi0] at this
      by_cases hii : i = i0
      · subst hii
        rw [hsome] at hk
        injection hk with hk
        subst hk
        exact hKne0 hc
      · rw [hkeys1 i hilt hii] at hk
        obtain ⟨heq, _⟩ := inv_idx_inj hinv hk hk0 hc
        exact hii heq
    have hmemdead1 : ∀ j, j ∈ fl → ∀ i k,
        (swapRemoveD s.keys i0).get? i = some k → k.idx ≠ j := by
      intro j hj i k hk
      have hilt : i < s.keys.length - 1 := by
        have := get?_some_lt hk
        rwa [length_swapRemoveD hi0] at this
      by_cases hii : i = i0
      · subst hii
        rw [hsome] at hk
        injection hk with hk
        subst hk
        exact hinv.fl_dead j hj _ klast hklast
      · rw [hkeys1 i hilt hii] at hk
        exact hinv.fl_dead j hj i k hk
    have hKnotfl : klast.idx ∉ fl := by
      intro hc
      exact hinv.fl_dead klast.idx hc _ klast hklast rfl
    have hbundle : ArenaInv
        (SlotMap.free_slot
          { keys := swapRemoveD s.keys i0, values := swapRemoveD s.values i0,
            slots := setSlotIdx s.slots klast.idx i0,
            freelist := s.freelist } k0.idx)
        (fl ++ [k0.idx]) := by
      apply free_slot_bundle
      · show (swapRemoveD s.keys i0).length = (swapRemoveD s.values i0).length
        rw [length_swapRemoveD hi0, length_swapRemoveD hi0v, hn]
      · exact hdense1
      · exact hinv.fl_nodup
      · intro j hj
        rw [length_setSlotIdx]
        exact hinv.fl_lt j hj
      · exact hmemdead1
      · intro j sl hj hsl
        rw [hA_other j (fun hc => hKnotfl (hc ▸ hj))] at hsl
        exact hinv.fl_gen j sl hj hsl
      · intro n j j2 hjn hjn2
        obtain ⟨sl, hsl, hidx⟩ := hinv.fl_links n j j2 hjn hjn2
        refine ⟨sl, ?_, hidx⟩
        rw [hA_other j (fun hc => hKnotfl (hc ▸ List.get?_mem hjn))]
        exact hsl
      · exact hinv.fl_repr
      · intro j hj
        rw [length_setSlotIdx] at hj
        rcases hinv.partition j hj with ⟨i, k, hk, hkidx⟩ | hmem
        · by_cases hii : i = i0
          · subst hii
            rw [hk0] at hk
            injection hk with hk
            subst hk
            exact Or.inr (Or.inr hkidx.symm)
          · by_cases hil : i = s.keys.length - 1
            · subst hil
              rw [hklast] at hk
              injection hk with hk
              refine Or.inl ⟨i0, k, ?_, hkidx⟩
              rw [hsome, hk]
            · have hilt : i < s.keys.length - 1 := by
                have := get?_some_lt hk
                omega
              refine Or.inl ⟨i, k, ?_, hkidx⟩
              rw [hkeys1 i hilt hii]
              exact hk
        · exact Or.inr (Or.inl hmem)
      · rw [length_setSlotIdx]
        exact hk0lt
      · exact hk0notin
      · exact hdead1
    refine ⟨fl ++ [k0.idx], ?_, ?_, ⟨v0, hv0⟩, ?_, ?_, ?_, ?_⟩
    · rw [hrs]
      exact hbundle
    · rw [hrs]
    · rw [hrs]
      show (SlotMap.free_slot _ k0.idx).keys.length = _
      rw [free_slot_keys]
      exact length_swapRemoveD hi0
    · rw [hrs]
      show (SlotMap.free_slot _ k0.idx).values.length = _
      rw [free_slot_values]
      exact length_swapRemoveD hi0v
    · rw [hrs]
      show List.Perm (SlotMap.free_slot _ k0.idx).keys _
      rw [free_slot_keys]
      exact swapRemoveD_perm_erase hk0
    · intro k hkmem hkne
      obtain ⟨m, hkm⟩ := List.mem_iff_get?.mp hkmem
      have hm : m < s.keys.length := get?_some_lt hkm
      have hmne : m ≠ i0 := by
        intro hc
        rw [hc, hk0] at hkm
        injection hkm with hkm
        exact hkne hkm.symm
      have hknot0 : k.idx ≠ k0.idx := by
        intro hc
        obtain ⟨heq, _⟩ := inv_idx_inj hinv hkm hk0 hc
        exact hmne heq
      have hknotfl : ∀ fr,
          ({ keys := swapRemoveD s.keys i0, values := swapRemoveD s.values i0,
             slots := setSlotIdx s.slots klast.idx i0,
             freelist := s.freelist } : SlotMap V).freelist =
            some fr → k.idx ≠ fr.tail := by
        intro fr hfr hc
        exact hinv.fl_dead fr.tail (htailfact fr hfr) m k hkm hc
      have hslots := @free_slot_slots_other V
        { keys := swapRemoveD s.keys i0, values := swapRemoveD s.values i0,
          slots := setSlotIdx s.slots klast.idx i0,
          freelist := s.freelist } _ _ hknot0 hknotfl
      by_cases hml : m = s.keys.length - 1
      · -- the surviving key is the displaced last entry
        have hkk : k = klast := by
          rw [hml, hklast] at hkm
          injection hkm with hkm
          exact hkm.symm
        constructor
        · rw [hrs]
          show k ∈ (SlotMap.free_slot _ k0.idx).keys
          rw [free_slot_keys, hkk]
          exact List.get?_mem hsome
        · rw [hrs]
          show (SlotMap.free_slot _ k0.idx).get k = s.get k
          have hsl2 : (SlotMap.free_slot
              { keys := swapRemoveD s.keys i0, values := swapRemoveD s.values i0,
                slots := setSlotIdx s.slots klast.idx i0,
                freelist := s.freelist } k0.idx).slots.get? k.idx =
              some ⟨i0, klast.gen⟩ := by
            rw [hslots, hkk]
            exact hA_K
          have hslk2 : s.slots.get? k.idx = some slK := by
            rw [hkk]
            exact hslK
          have hgen2 : klast.gen = k.gen := by
            rw [hkk]
          have hgenk : slK.gen = k.gen := by
            rw [hkk]
            exact hgK
          have hval : (swapRemoveD s.values i0).get? i0 =
              s.values.get? (s.values.length - 1) := by
            rw [get?_swapRemoveD hi0v (by omega), if_pos rfl]
          simp only [SlotMap.get, hsl2, hslk2, if_pos hgen2, if_pos hgenk,
            free_slot_values]
          rw [hval, hidxK, hn]
      · have hmlt : m < s.keys.length - 1 := by omega
        have hk1 : (swapRemoveD s.keys i0).get? m = some k := by
          rw [hkeys1 m hmlt hmne]
          exact hkm
        obtain ⟨sl, hsl, hidx, hgen⟩ := hinv.dense m k hkm
        constructor
        · rw [hrs]
          show k ∈ (SlotMap.free_slot _ k0.idx).keys
          rw [free_slot_keys]
          exact List.get?_mem hk1
        · rw [hrs]
          show (SlotMap.free_slot _ k0.idx).get k = s.get k
          have hsl2 : (SlotMap.free_slot
              { keys := swapRemoveD s.keys i0, values := swapRemoveD s.values i0,
                slots := setSlotIdx s.slots klast.idx i0,
                freelist := s.freelist } k0.idx).slots.get? k.idx = some sl := by
            rw [hslots, hA_other k.idx (hKdiff m k hkm hml)]
            exact hsl
          have hval : (swapRemoveD s.values i0).get? sl.idx =
              s.values.get? sl.idx := by
            rw [get?_swapRemoveD hi0v (by omega), if_neg (by omega)]
          simp only [SlotMap.get, hsl2, hsl, if_pos hgen, free_slot_values]
          exact hval

theorem inv_empty {V : Type} : ArenaInv (SlotMap.emptySM : SlotMap V) [] := by
  refine ⟨rfl, ?_, List.nodup_nil, ?_, ?_, ?_, ?_, rfl, ?_⟩
  · intro i k hk
    simp [SlotMap.emptySM] at hk
  · intro j hj
    exact absurd hj (List.not_mem_nil j)
  · intro j hj
    exact absurd hj (List.not_mem_nil j)
  · intro j sl hj
    exact absurd hj (List.not_mem_nil j)
  · intro n j j2 hn
    simp at hn
  · intro j hj
    simp [SlotMap.emptySM] at hj

theorem inv_applyAOp {V : Type} {s : SlotMap V} {fl : List Nat}
    (hinv : ArenaInv s fl) (op : ArenaOp V)
    (hop : (match op with
      | .del k => !s.contains_key k || s.keys.contains k
      | .ins _ => true) = true) :
    ∃ fl2, ArenaInv (applyAOp s op) fl2 := by
  cases op with
  | ins v =>
    obtain ⟨fl2, hinv2, _⟩ := insert_bundle hinv
      (@Prod.mk.eta _ _ (s.insert v)).symm
    exact ⟨fl2, hinv2⟩
  | del k =>
    by_cases hc : s.contains_key k = true
    · have hmem : k ∈ s.keys := by
        simp only [hc, Bool.not_true, Bool.false_or] at hop
        exact elem_true_iff.mp hop
      obtain ⟨i0, hi0⟩ := List.mem_iff_get?.mp hmem
      obtain ⟨fl2, hinv2, _⟩ := remove_bundle hinv hi0
      exact ⟨fl2, hinv2⟩
    · have hnoop := remove_noop (Bool.not_eq_true _ ▸ hc)
      have happ : applyAOp s (.del k) = s := by
        show (s.remove k).2 = s
        rw [hnoop]
      rw [happ]
      exact ⟨fl, hinv⟩

theorem inv_applyAOps {V : Type} {s : SlotMap V} {fl : List Nat}
    (hinv : ArenaInv s fl) {L : List (ArenaOp V)}
    (hh : honestA s L = true) :
    ∃ fl2, ArenaInv (applyAOps s L) fl2 := by
  induction L generalizing s fl with
  | nil => exact ⟨fl, hinv⟩
  | cons op rest ih =>
    obtain ⟨hcond, hrest⟩ := honestA_cons.mp hh
    obtain ⟨fl2, hinv2⟩ := inv_applyAOp hinv op hcond
    exact ih hinv2 hrest

theorem live_persist {V : Type} {s : SlotMap V} {fl : List Nat}
    (hinv : ArenaInv s fl) {k : KeyData} (hk : k ∈ s.keys)
    {L : List (ArenaOp V)} (hh : honestA s L = true)
    (hav : avoidsDel k L = true) :
    k ∈ (applyAOps s L).keys ∧ (applyAOps s L).get k = s.get k := by
  induction L generalizing s fl with
  | nil => exact ⟨hk, rfl⟩
  | cons op rest ih =>
    obtain ⟨hcond, hrest⟩ := honestA_cons.mp hh
    obtain ⟨hacond, harest⟩ := avoidsDel_cons.mp hav
    cases op with
    | ins v =>
      obtain ⟨fl2, hinv2, hkeys, _, _, hframe⟩ := insert_bundle hinv
        (@Prod.mk.eta _ _ (s.insert v)).symm
      have hk2b : k ∈ (s.insert v).2.keys := by
        rw [hkeys]
        exact List.mem_append.mpr (Or.inl hk)
      have hk2 : k ∈ (applyAOp s (.ins v)).keys := hk2b
      have hih := ih hinv2 hk2 hrest harest
      exact ⟨hih.1, hih.2.trans (hframe k hk)⟩
    | del k2 =>
      by_cases hc : s.contains_key k2 = true
      · have hmem2 : k2 ∈ s.keys := by
          simp only [hc, Bool.not_true, Bool.false_or] at hcond
          exact elem_true_iff.mp hcond
        obtain ⟨i0, hi0⟩ := List.mem_iff_get?.mp hmem2
        obtain ⟨fl2, hinv2, _, _, _, _, _, hframe⟩ := remove_bundle hinv hi0
        have hres := hframe k hk (fun hc2 => hacond hc2.symm)
        have hih := ih hinv2 hres.1 hrest harest
        exact ⟨hih.1, hih.2.trans hres.2⟩
      · have hnoop := remove_noop (Bool.not_eq_true _ ▸ hc)
        have happ : applyAOp s (.del k2) = s := by
          show (s.remove k2).2 = s
          rw [hnoop]
        rw [happ] at hrest
        have hih := ih hinv hk hrest harest
        show k ∈ (applyAOps (applyAOp s (.del k2)) rest).keys ∧
          (applyAOps (applyAOp s (.del k2)) rest).get k = s.get k
        rw [happ]
        exact hih

theorem contains_key_some {V : Type} {s : SlotMap V} {k : KeyData}
    (h : s.contains_key k = true) :
    ∃ slot, s.slots.get? k.idx = some slot ∧ slot.gen = k.gen := by
  unfold SlotMap.contains_key at h
  cases hq : s.slots.get? k.idx with
  | none =>
    rw [hq] at h
    exact Bool.noConfusion h
  | some slot =>
    rw [hq] at h
    exact ⟨slot, rfl, of_decide_eq_true h⟩

/-- C3: confirmed.  Quantifying over all honest operation sequences on a
fresh arena: (1) a key returned by `insert` still yields `Some` of its
inserted value from `get` after any further honest trace that does not
remove it; (2) once a `remove` succeeds on a key, `get` of that key is
`None` after every further trace whatsoever — even when the slot index is
reused; (3) the generation stored in a slot never decreases across any
trace.  (Honest traces are those whose `remove` arguments are obtainable
through the public API, see `honestA`.) -/
theorem c3_arena_key_lifecycle {V : Type} (L L2 L3 : List (ArenaOp V))
    (v : V) (k0 : KeyData) (v0 : V) (s s1 s2 : SlotMap V) (k : KeyData)
    (hs : applyAOps SlotMap.emptySM L = s)
    (hL : honestA SlotMap.emptySM L = true)
    (hins : s.insert v = (k, s1))
    (hL2 : honestA s1 L2 = true)
    (hav : avoidsDel k L2 = true)
    (hrem : s.remove k0 = (some v0, s2)) :
    (applyAOps s1 L2).get k = some v ∧
    (applyAOps s2 L3).get k0 = none ∧
    (∀ j sl L4, s.slots.get? j = some sl →
      ∃ sl2, (applyAOps s L4).slots.get? j = some sl2 ∧ sl.gen ≤ sl2.gen) := by
  subst hs
  obtain ⟨fl, hinv⟩ := inv_applyAOps inv_empty hL
  obtain ⟨fl2, hinv2, hkeys, hvals, hget, hframe⟩ := insert_bundle hinv hins
  refine ⟨?_, ?_, ?_⟩
  · have hk1 : k ∈ s1.keys := by
      rw [hkeys]
      exact List.mem_append.mpr (Or.inr (List.mem_singleton.mpr rfl))
    have hlp := live_persist hinv2 hk1 hL2 hav
    rw [hlp.2]
    exact hget
  · have hcont : (applyAOps SlotMap.emptySM L).contains_key k0 = true := by
      by_contra hc
      have hnoop := remove_noop (Bool.not_eq_true _ ▸ hc)
      rw [hrem] at hnoop
      injection hnoop with h1 _
      exact Option.noConfusion h1
    obtain ⟨slot, hq, hgen⟩ := contains_key_some hcont
    obtain ⟨sl2, hsl2, hg2⟩ := remove_success_gen hq hgen
    have hs2 : ((applyAOps SlotMap.emptySM L).remove k0).2 = s2 := by
      rw [hrem]
    rw [hs2] at hsl2
    exact get_none_of_stale hsl2 (by omega) L3
  · intro j sl L4 hsl
    exact slotsMono_applyAOps _ L4 j sl hsl

/-- Witness for C3: the spec's concrete scenario.  Two inserts (3200,
6400), then inserting 99 yields key (2,0) which survives an honest
removal of key (0,0); removing key (0,0) succeeds returning 3200 and the
key reads `none` even after the slot is reused by a later insert; slot
generations never decrease. -/
theorem c3_witness :
    (applyAOps
      (⟨[⟨0, 0⟩, ⟨1, 0⟩, ⟨2, 0⟩], [3200, 6400, 99],
        [⟨0, 0⟩, ⟨1, 0⟩, ⟨2, 0⟩], none⟩ : SlotMap Nat)
      [ArenaOp.del ⟨0, 0⟩]).get ⟨2, 0⟩ = some 99 ∧
    (applyAOps
      (⟨[⟨1, 0⟩], [6400], [⟨0, 1⟩, ⟨0, 0⟩], some ⟨0, 0⟩⟩ : SlotMap Nat)
      [ArenaOp.ins 12800]).get ⟨0, 0⟩ = none ∧
    (∀ j sl L4, (⟨[⟨0, 0⟩, ⟨1, 0⟩], [3200, 6400],
        [⟨0, 0⟩, ⟨1, 0⟩], none⟩ : SlotMap Nat).slots.get? j = some sl →
      ∃ sl2, (applyAOps (⟨[⟨0, 0⟩, ⟨1, 0⟩], [3200, 6400],
        [⟨0, 0⟩, ⟨1, 0⟩], none⟩ : SlotMap Nat) L4).slots.get? j = some sl2 ∧
        sl.gen ≤ sl2.gen) :=
  c3_arena_key_lifecycle [ArenaOp.ins 3200, ArenaOp.ins 6400]
    [ArenaOp.del ⟨0, 0⟩] [ArenaOp.ins 12800] 99 ⟨0, 0⟩ 3200
    (⟨[⟨0, 0⟩, ⟨1, 0⟩], [3200, 6400], [⟨0, 0⟩, ⟨1, 0⟩], none⟩ : SlotMap Nat)
    (⟨[⟨0, 0⟩, ⟨1, 0⟩, ⟨2, 0⟩], [3200, 6400, 99],
      [⟨0, 0⟩, ⟨1, 0⟩, ⟨2, 0⟩], none⟩ : SlotMap Nat)
    (⟨[⟨1, 0⟩], [6400], [⟨0, 1⟩, ⟨0, 0⟩], some ⟨0, 0⟩⟩ : SlotMap Nat)
    ⟨2, 0⟩ (by decide) (by decide) (by decide) (by decide) (by decide)
    (by decide)

/-- C7: confirmed.  On any reachable arena (honest trace from fresh) and
any live key `k0` (one of the dense keys), `remove k0` returns exactly
the value `get` returned for it, shrinks the dense key and value columns
by one, and leaves `get` unchanged for every other live key: the
swap-compaction retargets the displaced slot without corrupting any
surviving binding. -/
theorem c7_remove_frame {V : Type} (L : List (ArenaOp V)) (s : SlotMap V)
    (k0 : KeyData)
    (hs : applyAOps SlotMap.emptySM L = s)
    (hL : honestA SlotMap.emptySM L = true)
    (hlive : k0 ∈ s.keys) :
    (∃ v0, (s.remove k0).1 = some v0 ∧ s.get k0 = some v0) ∧
    (s.remove k0).2.values.length = s.values.length - 1 ∧
    (s.remove k0).2.keys.length = s.keys.length - 1 ∧
    (∀ k, k ∈ s.keys → k ≠ k0 → (s.remove k0).2.get k = s.get k) := by
  subst hs
  obtain ⟨fl, hinv⟩ := inv_applyAOps inv_empty hL
  obtain ⟨i0, hi0⟩ := List.mem_iff_get?.mp hlive
  obtain ⟨fl2, hinv2, hret, ⟨v0, hv0⟩, hlenk, hlenv, hperm, hframe⟩ :=
    remove_bundle hinv hi0
  obtain ⟨hgeteq, _⟩ := inv_get_eq hinv hi0
  refine ⟨⟨v0, ?_, ?_⟩, hlenv, hlenk, ?_⟩
  · rw [hret]
    exact hv0
  · rw [hgeteq]
    exact hv0
  · intro k hk hkne
    exact (hframe k hk hkne).2

/-- Witness for C7 at the spec's concrete scenario: removing key (0,0)
from the two-entry arena returns 3200 (the value `get` reported),
shrinks both dense columns to length 1, and leaves `get` of the other
live key (1,0) unchanged. -/
theorem c7_witness :
    (∃ v0, ((⟨[⟨0, 0⟩, ⟨1, 0⟩], [3200, 6400],
        [⟨0, 0⟩, ⟨1, 0⟩], none⟩ : SlotMap Nat).remove ⟨0, 0⟩).1 = some v0 ∧
      (⟨[⟨0, 0⟩, ⟨1, 0⟩], [3200, 6400],
        [⟨0, 0⟩, ⟨1, 0⟩], none⟩ : SlotMap Nat).get ⟨0, 0⟩ = some v0) ∧
    ((⟨[⟨0, 0⟩, ⟨1, 0⟩], [3200, 6400],
        [⟨0, 0⟩, ⟨1, 0⟩], none⟩ : SlotMap Nat).remove ⟨0, 0⟩).2.values.length =
      2 - 1 ∧
    ((⟨[⟨0, 0⟩, ⟨1, 0⟩], [3200, 6400],
        [⟨0, 0⟩, ⟨1, 0⟩], none⟩ : SlotMap Nat).remove ⟨0, 0⟩).2.keys.length =
      2 - 1 ∧
    (∀ k, k ∈ (⟨[⟨0, 0⟩, ⟨1, 0⟩], [3200, 6400],
        [⟨0, 0⟩, ⟨1, 0⟩], none⟩ : SlotMap Nat).keys → k ≠ ⟨0, 0⟩ →
      ((⟨[⟨0, 0⟩, ⟨1, 0⟩], [3200, 6400],
        [⟨0, 0⟩, ⟨1, 0⟩], none⟩ : SlotMap Nat).remove ⟨0, 0⟩).2.get k =
      (⟨[⟨0, 0⟩, ⟨1, 0⟩], [3200, 6400],
        [⟨0, 0⟩, ⟨1, 0⟩], none⟩ : SlotMap Nat).get k) :=
  c7_remove_frame [ArenaOp.ins 3200, ArenaOp.ins 6400]
    (⟨[⟨0, 0⟩, ⟨1, 0⟩], [3200, 6400], [⟨0, 0⟩, ⟨1, 0⟩], none⟩ : SlotMap Nat)
    ⟨0, 0⟩ (by decide) (by decide) (by decide)

/-- C4 amended: confirmed for the amended statement.  The first insert
into a fresh arena does return the all-zero key, coinciding with `NULL`
(see the counterexample); on every reachable arena whose slot table is
nonempty — that is, at every point after the very first insert — an
`insert` returns a key distinct from `NULL`, because a fresh slot gets a
nonzero index and a reused slot has been freed before and so carries a
generation of at least 1. -/
theorem c4_amended_insert_null_only_first {V : Type}
    (L : List (ArenaOp V)) (s : SlotMap V) (v : V)
    (hs : applyAOps SlotMap.emptySM L = s)
    (hL : honestA SlotMap.emptySM L = true)
    (hne : s.slots ≠ []) :
    (s.insert v).1 ≠ KeyData.NULL := by
  subst hs
  obtain ⟨fl, hinv⟩ := inv_applyAOps inv_empty hL
  cases hfl : (applyAOps SlotMap.emptySM L).freelist with
  | none =>
    have hkey : ((applyAOps SlotMap.emptySM L).insert v).1 =
        ⟨(applyAOps SlotMap.emptySM L).slots.length, 0⟩ := by
      simp only [SlotMap.insert, acquire_slot_none hfl]
    rw [hkey]
    intro hc
    have hidx := congrArg KeyData.idx hc
    simp only [KeyData.NULL] at hidx
    exact hne (List.length_eq_zero.mp hidx)
  | some flh =>
    have hrepr : fl.head? = some flh.head ∧ fl.getLast? = some flh.tail := by
      have h := hinv.fl_repr
      simp only [hfl] at h
      exact h
    have hmemh : flh.head ∈ fl := by
      rw [List.eq_cons_of_mem_head? hrepr.1]
      exact List.mem_cons_self _ _
    obtain ⟨sl0, hsl0⟩ := get?_of_lt (hinv.fl_lt _ hmemh)
    have hgen : 1 ≤ sl0.gen := hinv.fl_gen _ sl0 hmemh hsl0
    have hkey : ((applyAOps SlotMap.emptySM L).insert v).1 =
        ⟨flh.head, sl0.gen⟩ := by
      simp only [SlotMap.insert, acquire_slot_some hfl, hsl0, Option.getD_some]
    rw [hkey]
    intro hc
    have hg := congrArg KeyData.gen hc
    simp only [KeyData.NULL] at hg
    omega

/-- Witness for the amended C4: after one insert the slot table is
nonempty and the next insert returns key (1,0), distinct from `NULL`. -/
theorem c4_amended_witness :
    ((⟨[⟨0, 0⟩], [7], [⟨0, 0⟩], none⟩ : SlotMap Nat).insert 8).1 ≠
      KeyData.NULL :=
  c4_amended_insert_null_only_first [ArenaOp.ins 7]
    (⟨[⟨0, 0⟩], [7], [⟨0, 0⟩], none⟩ : SlotMap Nat) 8
    (by decide) (by decide) (by decide)

theorem swapRemoveD_map {α β : Type} (f : α → β) (l : List α) (i : Nat) :
    swapRemoveD (l.map f) i = (swapRemoveD l i).map f := by
  unfold swapRemoveD
  rw [List.getLast?_map]
  cases hq : l.getLast? with
  | none => rfl
  | some a =>
    simp only [Option.map_some']
    rw [List.length_map]
    by_cases hi : i < l.length
    · rw [if_pos hi, if_pos hi, ← List.map_set, List.map_dropLast]
    · rw [if_neg hi, if_neg hi]

theorem inv_values_set {V : Type} {s : SlotMap V} {fl : List Nat}
    (hinv : ArenaInv s fl) (vi : Nat) (v : V) :
    ArenaInv { s with values := s.values.set vi v } fl := by
  obtain ⟨hlen, hdense, hnodup, hlt, hdead, hgen, hlinks, hrepr, hpart⟩ := hinv
  exact ⟨by rw [List.length_set]; exact hlen, hdense, hnodup, hlt, hdead,
    hgen, hlinks, hrepr, hpart⟩

theorem insert_with_key_eq_insert {V : Type} (s : SlotMap V) (f : KeyData → V) :
    s.insert_with_key f = s.insert (f (s.acquire_slot s.values.length).1) := rfl

theorem insert_at_value_notfound {K V : Type} [DecidableEq K] [DecidableEq V]
    (hashK : K → Nat) (hashV : V → Nat) (b : BiMap K V) (v : V) (k : K)
    (h : b.index_of_hashed_value (hashV v) v = none) :
    (b.insert_at_value hashK hashV v k).2 =
      ⟨b.keys ++ [k], b.values ++ [v],
       b.key_hashes ++ [hashK k], b.value_hashes ++ [hashV v]⟩ := by
  simp only [BiMap.insert_at_value, h]

theorem bimap_find_key_none {K V : Type} [DecidableEq K] [DecidableEq V]
    {hashK : K → Nat} {hashV : V → Nat} {b : BiMap K V}
    (hw : BiMapWF hashK hashV b) {v : V}
    (h : BiMap.find_key hashV b v = none) :
    b.index_of_hashed_value (hashV v) v = none := by
  obtain ⟨hw1, hw2, hw3⟩ := hw
  cases hq : b.index_of_hashed_value (hashV v) v with
  | none => rfl
  | some i =>
    exfalso
    have hsc : eqScan v b.values = some i := by
      rw [← bimap_index_of_value_wf hw2 v]
      exact hq
    have hvi : b.values.get? i = some v := eqScan_some hsc
    have hik : i < b.keys.length := by
      rw [hw3]
      exact get?_some_lt hvi
    obtain ⟨k0, hk0⟩ := get?_of_lt hik
    unfold BiMap.find_key at h
    rw [show b.index_of_value hashV v = some i from hq] at h
    have h2 : b.keys.get? i = none := h
    rw [hk0] at h2
    exact Option.noConfusion h2

theorem honestN_cons {V Nm : Type} [DecidableEq Nm] {hK : KeyData → Nat}
    {hN : Nm → Nat} {ns : NamedSlotMap V Nm} {op : NOp V Nm}
    {L : List (NOp V Nm)} :
    honestN hK hN ns (op :: L) = true ↔
      ((match op with
        | .del k => !ns.slot_map.contains_key k || ns.slot_map.keys.contains k
        | _ => true) = true ∧
        honestN hK hN (applyNOp hK hN ns op) L = true) := by
  cases op <;> simp [honestN]

theorem ninv_fresh_bind {V Nm : Type} [DecidableEq Nm]
    (hK : KeyData → Nat) (hN : Nm → Nat) {ns : NamedSlotMap V Nm}
    {fl : List Nat} (hainv : ArenaInv ns.slot_map fl)
    (hwf : BiMapWF hK hN ns.id_bindings)
    (hperm : List.Perm ns.slot_map.keys ns.id_bindings.keys)
    (id : Nm) (w : V)
    (hidxnone : ns.id_bindings.index_of_hashed_value (hN id) id = none) :
    NamedInv hK hN ⟨(ns.slot_map.insert w).2,
      (ns.id_bindings.insert_at_value hK hN id (ns.slot_map.insert w).1).2⟩ := by
  obtain ⟨fl2, hainv2, hkeys, _, _, _⟩ := insert_bundle hainv
    (@Prod.mk.eta _ _ (ns.slot_map.insert w)).symm
  obtain ⟨hw1, hw2, hw3⟩ := hwf
  rw [insert_at_value_notfound hK hN _ id _ hidxnone]
  refine ⟨⟨fl2, hainv2⟩, ⟨?_, ?_, ?_⟩, ?_⟩
  · show ns.id_bindings.key_hashes ++ [hK (ns.slot_map.insert w).1] =
      (ns.id_bindings.keys ++ [(ns.slot_map.insert w).1]).map hK
    rw [hw1, List.map_append]
    rfl
  · show ns.id_bindings.value_hashes ++ [hN id] =
      (ns.id_bindings.values ++ [id]).map hN
    rw [hw2, List.map_append]
    rfl
  · show (ns.id_bindings.keys ++ [(ns.slot_map.insert w).1]).length =
      (ns.id_bindings.values ++ [id]).length
    simp [hw3]
  · show List.Perm (ns.slot_map.insert w).2.keys
      (ns.id_bindings.keys ++ [(ns.slot_map.insert w).1])
    rw [hkeys]
    exact List.Perm.append hperm (List.Perm.refl _)

theorem ninv_applyNOp {V Nm : Type} [DecidableEq Nm]
    (hK : KeyData → Nat) (hN : Nm → Nat) {ns : NamedSlotMap V Nm}
    (hinv : NamedInv hK hN ns) (op : NOp V Nm)
    (hop : (match op with
      | .del k => !ns.slot_map.contains_key k || ns.slot_map.keys.contains k
      | _ => true) = true) :
    NamedInv hK hN (applyNOp hK hN ns op) := by
  obtain ⟨⟨fl, hainv⟩, hwf, hperm⟩ := hinv
  cases op with
  | ins id v =>
    show NamedInv hK hN (ns.insert hK hN id v).2
    cases hfk : BiMap.find_key hN ns.id_bindings id with
    | some ek =>
      have heq : (ns.insert hK hN id v).2 = { ns with slot_map :=
          { ns.slot_map with values := ns.slot_map.values.set (((ns.slot_map.slots.get? ek.idx).getD ⟨0, 0⟩).idx) v } } := by
        simp only [NamedSlotMap.insert, hfk]
      rw [heq]
      exact ⟨⟨fl, inv_values_set hainv _ v⟩, hwf, hperm⟩
    | none =>
      have heq : (ns.insert hK hN id v).2 = ⟨(ns.slot_map.insert v).2,
          (ns.id_bindings.insert_at_value hK hN id (ns.slot_map.insert v).1).2⟩ := by
        simp only [NamedSlotMap.insert, hfk]
      rw [heq]
      exact ninv_fresh_bind hK hN hainv hwf hperm id v
        (bimap_find_key_none hwf hfk)
  | insU id v =>
    show NamedInv hK hN (ns.insert_unique hK hN id v).2
    by_cases hc : ns.id_bindings.contains_value hN id = true
    · have heq : (ns.insert_unique hK hN id v).2 = ns := by
        unfold NamedSlotMap.insert_unique
        rw [if_pos hc]
      rw [heq]
      exact ⟨⟨fl, hainv⟩, hwf, hperm⟩
    · have heq : (ns.insert_unique hK hN id v).2 = ⟨(ns.slot_map.insert v).2,
          (ns.id_bindings.insert_at_value hK hN id (ns.slot_map.insert v).1).2⟩ := by
        unfold NamedSlotMap.insert_unique
        rw [if_neg hc]
      have hidxnone : ns.id_bindings.index_of_hashed_value (hN id) id = none := by
        have hcf : ns.id_bindings.contains_value hN id = false :=
          Bool.not_eq_true _ ▸ hc
        unfold BiMap.contains_value at hcf
        cases hq : ns.id_bindings.index_of_value hN id with
        | none => exact hq
        | some i =>
          rw [hq] at hcf
          exact Bool.noConfusion hcf
      rw [heq]
      exact ninv_fresh_bind hK hN hainv hwf hperm id v hidxnone
  | insW id f =>
    show NamedInv hK hN (ns.insert_with_key hK hN id f).2
    cases hfk : BiMap.find_key hN ns.id_bindings id with
    | some ek =>
      have heq : (ns.insert_with_key hK hN id f).2 = { ns with slot_map :=
          { ns.slot_map with values := ns.slot_map.values.set (((ns.slot_map.slots.get? ek.idx).getD ⟨0, 0⟩).idx) (f ek) } } := by
        simp only [NamedSlotMap.insert_with_key, hfk]
      rw [heq]
      exact ⟨⟨fl, inv_values_set hainv _ (f ek)⟩, hwf, hperm⟩
    | none =>
      have heq : (ns.insert_with_key hK hN id f).2 =
          ⟨(ns.slot_map.insert_with_key f).2,
           (ns.id_bindings.insert_at_value hK hN id
             (ns.slot_map.insert_with_key f).1).2⟩ := by
        simp only [NamedSlotMap.insert_with_key, hfk]
      rw [heq, insert_with_key_eq_insert]
      exact ninv_fresh_bind hK hN hainv hwf hperm id _
        (bimap_find_key_none hwf hfk)
  | insUW id f =>
    show NamedInv hK hN (ns.insert_unique_with_key hK hN id f).2
    by_cases hc : ns.id_bindings.contains_value hN id = true
    · have heq : (ns.insert_unique_with_key hK hN id f).2 = ns := by
        unfold NamedSlotMap.insert_unique_with_key
        rw [if_pos hc]
      rw [heq]
      exact ⟨⟨fl, hainv⟩, hwf, hperm⟩
    · have heq : (ns.insert_unique_with_key hK hN id f).2 =
          ⟨(ns.slot_map.insert_with_key f).2,
           (ns.id_bindings.insert_at_value hK hN id
             (ns.slot_map.insert_with_key f).1).2⟩ := by
        unfold NamedSlotMap.insert_unique_with_key
        rw [if_neg hc]
      have hidxnone : ns.id_bindings.index_of_hashed_value (hN id) id = none := by
        have hcf : ns.id_bindings.contains_value hN id = false :=
          Bool.not_eq_true _ ▸ hc
        unfold BiMap.contains_value at hcf
        cases hq : ns.id_bindings.index_of_value hN id with
        | none => exact hq
        | some i =>
          rw [hq] at hcf
          exact Bool.noConfusion hcf
      rw [heq, insert_with_key_eq_insert]
      exact ninv_fresh_bind hK hN hainv hwf hperm id _ hidxnone
  | del k =>
    show NamedInv hK hN (ns.remove hK k).2
    by_cases hc : ns.slot_map.contains_key k = true
    · have hmem : k ∈ ns.slot_map.keys := by
        simp only [hc, Bool.not_true, Bool.false_or] at hop
        exact elem_true_iff.mp hop
      obtain ⟨i0, hi0⟩ := List.mem_iff_get?.mp hmem
      obtain ⟨fl2, hainv2, hret, ⟨v0, hv0⟩, _, _, hpermS, _⟩ :=
        remove_bundle hainv hi0
      obtain ⟨hw1, hw2, hw3⟩ := hwf
      have hrem1 : (ns.slot_map.remove k).1 = some v0 := by
        rw [hret]
        exact hv0
      have hmemb : k ∈ ns.id_bindings.keys := hperm.mem_iff.mp hmem
      obtain ⟨idx, hidx⟩ := Option.isSome_iff_exists.mp
        (eqScan_isSome_of_mem hmemb)
      have hkidx : ns.id_bindings.keys.get? idx = some k := eqScan_some hidx
      have hidxk : idx < ns.id_bindings.keys.length := get?_some_lt hkidx
      have hidxv : idx < ns.id_bindings.values.length := by
        rw [← hw3]
        exact hidxk
      obtain ⟨nm, hnm⟩ := get?_of_lt hidxv
      have hiok : ns.id_bindings.index_of_key hK k = some idx := by
        rw [bimap_index_of_key_wf hw1]
        exact hidx
      have hrbk : ns.id_bindings.remove_by_key hK k = some ((k, nm),
          ⟨swapRemoveD ns.id_bindings.keys idx,
           swapRemoveD ns.id_bindings.values idx,
           swapRemoveD ns.id_bindings.key_hashes idx,
           swapRemoveD ns.id_bindings.value_hashes idx⟩) := by
        simp only [BiMap.remove_by_key, hiok, BiMap.remove_by_index, BiMap.len,
          hkidx, hnm]
        rw [if_pos hidxv]
      have hremeq : ns.slot_map.remove k =
          (some v0, (ns.slot_map.remove k).2) := by
        rw [← hrem1]
      have heq : (ns.remove hK k).2 = ⟨(ns.slot_map.remove k).2,
          ⟨swapRemoveD ns.id_bindings.keys idx,
           swapRemoveD ns.id_bindings.values idx,
           swapRemoveD ns.id_bindings.key_hashes idx,
           swapRemoveD ns.id_bindings.value_hashes idx⟩⟩ := by
        unfold NamedSlotMap.remove
        rw [hremeq]
        simp only [hrbk]
      rw [heq]
      refine ⟨⟨fl2, hainv2⟩, ⟨?_, ?_, ?_⟩, ?_⟩
      · show swapRemoveD ns.id_bindings.key_hashes idx =
          (swapRemoveD ns.id_bindings.keys idx).map hK
        rw [hw1, swapRemoveD_map]
      · show swapRemoveD ns.id_bindings.value_hashes idx =
          (swapRemoveD ns.id_bindings.values idx).map hN
        rw [hw2, swapRemoveD_map]
      · show (swapRemoveD ns.id_bindings.keys idx).length =
          (swapRemoveD ns.id_bindings.values idx).length
        rw [length_swapRemoveD hidxk, length_swapRemoveD hidxv, hw3]
      · show List.Perm (ns.slot_map.remove k).2.keys
          (swapRemoveD ns.id_bindings.keys idx)
        exact (hpermS.trans (hperm.erase k)).trans
          (swapRemoveD_perm_erase hkidx).symm
    · have hnoop := remove_noop (Bool.not_eq_true _ ▸ hc)
      have heq : (ns.remove hK k).2 = ns := by
        simp only [NamedSlotMap.remove, hnoop]
      rw [heq]
      exact ⟨⟨fl, hainv⟩, hwf, hperm⟩

theorem ninv_empty {V Nm : Type} [DecidableEq Nm]
    (hK : KeyData → Nat) (hN : Nm → Nat) :
    NamedInv hK hN (NamedSlotMap.emptyNSM : NamedSlotMap V Nm) :=
  ⟨⟨[], inv_empty⟩, ⟨rfl, rfl, rfl⟩, List.Perm.refl _⟩

theorem ninv_applyNOps {V Nm : Type} [DecidableEq Nm]
    (hK : KeyData → Nat) (hN : Nm → Nat) {ns : NamedSlotMap V Nm}
    (hinv : NamedInv hK hN ns) {L : List (NOp V Nm)}
    (hh : honestN hK hN ns L = true) :
    NamedInv hK hN (applyNOps hK hN ns L) := by
  induction L generalizing ns with
  | nil => exact hinv
  | cons op rest ih =>
    obtain ⟨hcond, hrest⟩ := honestN_cons.mp hh
    exact ih (ninv_applyNOp hK hN hinv op hcond) hrest

/-- C8: confirmed.  After any honest sequence of `insert`,
`insert_unique`, `insert_with_key`, `insert_unique_with_key` and
`remove` operations on a fresh `NamedSlotMap`, the set of keys held in
the inner arena's dense key column equals the set of keys in the inner
dictionary's key column (the two columns are in fact permutations of
each other). -/
theorem c8_registry_key_sets_agree {V Nm : Type} [DecidableEq Nm]
    (hK : KeyData → Nat) (hN : Nm → Nat) (L : List (NOp V Nm))
    (hh : honestN hK hN NamedSlotMap.emptyNSM L = true) :
    ∀ k, k ∈ (applyNOps hK hN NamedSlotMap.emptyNSM L).slot_map.keys ↔
      k ∈ (applyNOps hK hN NamedSlotMap.emptyNSM L).id_bindings.keys := by
  intro k
  exact (ninv_applyNOps hK hN (ninv_empty hK hN) hh).2.2.mem_iff

/-- Witness for C8 on a concrete honest trace: bind name 5 to value 1,
re-bind it (in-place replacement), add a unique name 6, then remove the
first key; key (0,0) is in neither column, key (1,0) is in both. -/
theorem c8_witness :
    ((⟨0, 0⟩ : KeyData) ∈ (applyNOps (fun kd => kd.idx + 10 * kd.gen)
        (fun n => n % 3) (NamedSlotMap.emptyNSM : NamedSlotMap Nat Nat)
        [NOp.ins 5 1, NOp.ins 5 2, NOp.insU 6 3,
         NOp.del ⟨0, 0⟩]).slot_map.keys ↔
      (⟨0, 0⟩ : KeyData) ∈ (applyNOps (fun kd => kd.idx + 10 * kd.gen)
        (fun n => n % 3) (NamedSlotMap.emptyNSM : NamedSlotMap Nat Nat)
        [NOp.ins 5 1, NOp.ins 5 2, NOp.insU 6 3,
         NOp.del ⟨0, 0⟩]).id_bindings.keys) :=
  c8_registry_key_sets_agree (fun kd => kd.idx + 10 * kd.gen) (fun n => n % 3)
    [NOp.ins 5 1, NOp.ins 5 2, NOp.insU 6 3, NOp.del ⟨0, 0⟩]
    (by decide) ⟨0, 0⟩
